import Mathlib

/-!
Verification of `algorithms_and_data_structures`.

A shallow embedding in Lean 4 of the Rust repository's binary search tree
(`src/data_structures/binary_search_tree.rs`), doubly linked list
(`src/data_structures/doubly_linked_list.rs`) and the three comparison sorts
(`src/sort/{bubble,insertion,selection}_sort.rs`), together with proofs of the
specified properties.

Conventions of the embedding:
* Rust `Option<Box<Node<T>>>` tree children become a `nil` constructor of an
  inductive tree type, so `nil` is Rust's `None` and `node v l r` is
  `Some(Node { value: v, left: l, right: r })`.
* Rust slices become `List`s; in-place mutation becomes returning the new list.
* `usize` arithmetic is `Nat` with explicit wrap-around (`% 2 ^ 64`) at the one
  subtraction that can overflow, and a checked variant records where a
  debug-profile overflow panic would occur.
* The `Rc<RefCell<Node<T>>>`-based doubly linked list becomes an explicit heap:
  a store mapping addresses (`Nat`) to nodes, plus head/tail addresses, the
  cached `length`, and a fresh-address counter standing for allocation.
-/

/-! ## Binary search tree (`binary_search_tree.rs`)

`bst.Node T` models `Option<Box<Node<T>>>`: `nil` is `None`, and
`node value left right` is `Some(Box::new(Node { value, left, right }))`.
The standalone `BinarySearchTree` wrapper holds `root : Option<Box<Node<T>>>`,
which is exactly a `bst.Node T` again, so the wrapper methods are the `nil`
cases of the node methods.
-/

namespace bst

inductive Node (T : Type) : Type where
  | nil : Node T
  | node (value : T) (left right : Node T) : Node T
deriving DecidableEq, Repr

variable {T : Type} [LinearOrder T]

/-- `Node::insert` (lines 19-37) together with `BinarySearchTree::insert`
(lines 127-135): `self.value.cmp(&value)` is `compare self.value value`;
`Equal` is a no-op, `Less` descends right, `Greater` descends left, and an
absent child (`nil`) is replaced by a fresh leaf. The wrapper's empty-root case
is the `nil` case here. -/
def Node.insert : Node T → T → Node T
  | .nil, value => .node value .nil .nil
  | .node v l r, value =>
    match compare v value with
    | .eq => .node v l r
    | .lt => .node v l (r.insert value)
    | .gt => .node v (l.insert value) r

/-- `Node::contains` (lines 39-57) together with `BinarySearchTree::contains`
(lines 137-142): same descent, `true` on `Equal`, `false` when the required
child is absent (and on the empty tree). -/
def Node.contains : Node T → T → Bool
  | .nil, _ => false
  | .node v l r, value =>
    match compare v value with
    | .eq => true
    | .lt => r.contains value
    | .gt => l.contains value

/-- `From<Vec<T>> for BinarySearchTree<T>` (lines 114-124): insert each vector
element in order into a new tree. -/
def fromVec (vec : List T) : Node T :=
  vec.foldl Node.insert .nil

end bst

namespace bst

variable {T : Type}

/-- `Node::traverse_depth_first_pre_order` (lines 59-69) with the wrapper
(lines 169-179): push the value, then drain the left child, then the right
child, into the shared output vector. -/
def Node.traverse_depth_first_pre_order : Node T → List T
  | .nil => []
  | .node v l r =>
    v :: (l.traverse_depth_first_pre_order ++ r.traverse_depth_first_pre_order)

/-- `Node::traverse_depth_first_post_order` (lines 71-80) with the wrapper
(lines 181-191). -/
def Node.traverse_depth_first_post_order : Node T → List T
  | .nil => []
  | .node v l r =>
    l.traverse_depth_first_post_order ++ r.traverse_depth_first_post_order ++ [v]

/-- `Node::traverse_depth_first_in_order` (lines 82-92) with the wrapper
(lines 193-203). -/
def Node.traverse_depth_first_in_order : Node T → List T
  | .nil => []
  | .node v l r =>
    l.traverse_depth_first_in_order ++ v :: r.traverse_depth_first_in_order

/-- Number of `node` constructors; used only as the termination measure of the
breadth-first queue loop. -/
def Node.size : Node T → Nat
  | .nil => 0
  | .node _ l r => l.size + r.size + 1

/-- `if let Some(child) = node.left { queue.push_back(child) }`: a `nil` child
is not enqueued. -/
def enqueueChild : Node T → List (Node T)
  | .nil => []
  | .node v l r => [.node v l r]

@[simp] theorem enqueueChild_size (t : Node T) :
    (enqueueChild t).foldr (fun n acc => n.size + acc) 0 = t.size := by
  cases t <;> simp [enqueueChild, Node.size]

/-- The `while let Some(node) = queue.pop_front()` loop of
`BinarySearchTree::traverse_breath_first` (lines 154-164): record the dequeued
node's value and enqueue its present children. -/
def bfsLoop : List (Node T) → List T
  | [] => []
  | .nil :: queue => bfsLoop queue
  | .node v l r :: queue => v :: bfsLoop ((queue ++ enqueueChild l) ++ enqueueChild r)
termination_by queue => ((queue.map Node.size).sum, queue.length)
decreasing_by
  · simp only [List.map_cons, List.sum_cons, Node.size, Nat.zero_add]
    exact Prod.Lex.right _ (Nat.lt_succ_self _)
  · apply Prod.Lex.left
    have hl : ((enqueueChild l).map Node.size).sum = l.size := by
      cases l <;> simp [enqueueChild, Node.size]
    have hr : ((enqueueChild r).map Node.size).sum = r.size := by
      cases r <;> simp [enqueueChild, Node.size]
    simp [Node.size, hl, hr]
    omega

/-- `BinarySearchTree::traverse_breath_first` (lines 144-167): empty root
returns an empty vector, otherwise the queue is seeded with the root. -/
def traverse_breath_first : Node T → List T
  | .nil => []
  | .node v l r => bfsLoop [.node v l r]

end bst

namespace bst

variable {T : Type} [LinearOrder T]

/-- `p` holds at every value stored in the tree. -/
def ForallNode (p : T → Prop) : Node T → Prop
  | .nil => True
  | .node v l r => ForallNode p l ∧ p v ∧ ForallNode p r

/-- The search-tree invariant: left values are smaller, right values larger,
recursively. -/
def IsBST : Node T → Prop
  | .nil => True
  | .node v l r => ForallNode (· < v) l ∧ ForallNode (v < ·) r ∧ IsBST l ∧ IsBST r

theorem forallNode_insert {p : T → Prop} {t : Node T} {x : T}
    (ht : ForallNode p t) (hx : p x) : ForallNode p (t.insert x) := by
  induction t with
  | nil => exact ⟨trivial, hx, trivial⟩
  | node v l r ihl ihr =>
    obtain ⟨hl, hv, hr⟩ := ht
    unfold Node.insert
    rcases h : compare v x with _ | _ | _
    · exact ⟨hl, hv, ihr hr⟩
    · exact ⟨hl, hv, hr⟩
    · exact ⟨ihl hl, hv, hr⟩

theorem isBST_insert {t : Node T} {x : T} (ht : IsBST t) : IsBST (t.insert x) := by
  induction t with
  | nil => exact ⟨trivial, trivial, trivial, trivial⟩
  | node v l r ihl ihr =>
    obtain ⟨hfl, hfr, hl, hr⟩ := ht
    unfold Node.insert
    rcases h : compare v x with _ | _ | _
    · exact ⟨hfl, forallNode_insert hfr ((compare_lt_iff_lt).1 h), hl, ihr hr⟩
    · exact ⟨hfl, hfr, hl, hr⟩
    · exact ⟨forallNode_insert hfl ((compare_gt_iff_gt).1 h), hfr, ihl hl, hr⟩

theorem forallNode_mem_inOrder {p : T → Prop} {t : Node T}
    (ht : ForallNode p t) {y : T} (hy : y ∈ t.traverse_depth_first_in_order) : p y := by
  induction t with
  | nil => simp [Node.traverse_depth_first_in_order] at hy
  | node v l r ihl ihr =>
    obtain ⟨hl, hv, hr⟩ := ht
    simp only [Node.traverse_depth_first_in_order, List.mem_append, List.mem_cons] at hy
    rcases hy with h | h | h
    · exact ihl hl h
    · exact h ▸ hv
    · exact ihr hr h

theorem sorted_inOrder_of_isBST {t : Node T} (ht : IsBST t) :
    (t.traverse_depth_first_in_order).Sorted (· < ·) := by
  induction t with
  | nil => exact List.sorted_nil
  | node v l r ihl ihr =>
    obtain ⟨hfl, hfr, hl, hr⟩ := ht
    simp only [Node.traverse_depth_first_in_order]
    rw [List.Sorted, List.pairwise_append]
    refine ⟨ihl hl, ?_, ?_⟩
    · rw [List.pairwise_cons]
      exact ⟨fun y hy => forallNode_mem_inOrder hfr hy, ihr hr⟩
    · intro a ha b hb
      rcases List.mem_cons.1 hb with rfl | hb
      · exact forallNode_mem_inOrder hfl ha
      · exact (forallNode_mem_inOrder hfl ha).trans (forallNode_mem_inOrder hfr hb)

theorem mem_inOrder_insert {t : Node T} {x y : T} :
    y ∈ (t.insert x).traverse_depth_first_in_order ↔
      y = x ∨ y ∈ t.traverse_depth_first_in_order := by
  induction t with
  | nil => simp [Node.insert, Node.traverse_depth_first_in_order]
  | node v l r ihl ihr =>
    unfold Node.insert
    rcases h : compare v x with _ | _ | _
    · simp only [Node.traverse_depth_first_in_order, List.mem_append, List.mem_cons, ihr]
      tauto
    · have hvx : v = x := (compare_eq_iff_eq).1 h
      simp only [Node.traverse_depth_first_in_order, List.mem_append, List.mem_cons]
      subst hvx
      tauto
    · simp only [Node.traverse_depth_first_in_order, List.mem_append, List.mem_cons, ihl]
      tauto

theorem mem_inOrder_foldl {vs : List T} {t : Node T} {y : T} :
    y ∈ (vs.foldl Node.insert t).traverse_depth_first_in_order ↔
      y ∈ t.traverse_depth_first_in_order ∨ y ∈ vs := by
  induction vs generalizing t with
  | nil => simp
  | cons x vs ih =>
    simp only [List.foldl_cons, ih, mem_inOrder_insert, List.mem_cons]
    tauto

theorem isBST_fromVec (vs : List T) : IsBST (fromVec vs) := by
  have h : ∀ t : Node T, IsBST t → IsBST (vs.foldl Node.insert t) := by
    induction vs with
    | nil => exact fun t ht => ht
    | cons x vs ih => exact fun t ht => ih _ (isBST_insert ht)
  exact h .nil trivial

theorem contains_iff_mem_inOrder {t : Node T} (ht : IsBST t) (x : T) :
    t.contains x = true ↔ x ∈ t.traverse_depth_first_in_order := by
  induction t with
  | nil => simp [Node.contains, Node.traverse_depth_first_in_order]
  | node v l r ihl ihr =>
    obtain ⟨hfl, hfr, hl, hr⟩ := ht
    unfold Node.contains
    simp only [Node.traverse_depth_first_in_order, List.mem_append, List.mem_cons]
    rcases h : compare v x with _ | _ | _
    · have hvx : v < x := (compare_lt_iff_lt).1 h
      rw [ihr hr]
      constructor
      · exact fun hm => Or.inr (Or.inr hm)
      · rintro (hm | rfl | hm)
        · exact absurd (forallNode_mem_inOrder hfl hm) (by simp; exact hvx.le)
        · exact absurd hvx (lt_irrefl x)
        · exact hm
    · have hvx : v = x := (compare_eq_iff_eq).1 h
      simp [hvx]
    · have hvx : x < v := (compare_gt_iff_gt).1 h
      rw [ihl hl]
      constructor
      · exact fun hm => Or.inl hm
      · rintro (hm | rfl | hm)
        · exact hm
        · exact absurd hvx (lt_irrefl x)
        · exact absurd (forallNode_mem_inOrder hfr hm) (by simp; exact hvx.le)

end bst

/-- C1: For every sequence of values inserted into the binary search tree
(in any order, with any duplicates), `traverse_depth_first_in_order` returns
the values in ascending (strictly increasing, hence duplicate-free) sorted
order, containing exactly the distinct inserted values. -/
theorem bst_inOrder_sorted_dedup {T : Type} [LinearOrder T] (vs : List T) :
    ((bst.fromVec vs).traverse_depth_first_in_order).Sorted (· < ·) ∧
    ((bst.fromVec vs).traverse_depth_first_in_order).Nodup ∧
    ∀ v : T, v ∈ (bst.fromVec vs).traverse_depth_first_in_order ↔ v ∈ vs := by
  have hs := bst.sorted_inOrder_of_isBST (bst.isBST_fromVec vs)
  refine ⟨hs, hs.nodup, fun v => ?_⟩
  rw [bst.fromVec, bst.mem_inOrder_foldl]
  simp [bst.Node.traverse_depth_first_in_order]

/-- C7: For every binary search tree built by a sequence of inserts and every
value `v`, `contains v` returns true iff `v` appears in the in-order traversal
of that tree, equivalently iff `v` was among the inserted values; on the empty
tree `contains` always returns false. -/
theorem bst_contains_iff_mem {T : Type} [LinearOrder T] (vs : List T) (v : T) :
    ((bst.fromVec vs).contains v = true ↔
        v ∈ (bst.fromVec vs).traverse_depth_first_in_order) ∧
    ((bst.fromVec vs).contains v = true ↔ v ∈ vs) ∧
    (bst.Node.nil : bst.Node T).contains v = false := by
  have h1 := bst.contains_iff_mem_inOrder (bst.isBST_fromVec vs) v
  refine ⟨h1, ?_, rfl⟩
  rw [h1, bst.fromVec, bst.mem_inOrder_foldl]
  simp [bst.Node.traverse_depth_first_in_order]

/-! ## Bubble sort (`sort/bubble_sort.rs`)

The Rust `sort` runs the outer loop `for i in (0..array.len()).rev()`; the
inner loop `for j in 0..i` compares and swaps adjacent slots `j`, `j + 1`, so
one inner run acts on the first `i + 1` slots only and carries the running
maximum rightward. `no_swap` is tracked here as a swap counter, with
`no_swap = (count = 0)`. -/

namespace bubble_sort

variable {T : Type} [LinearOrder T]

/-- The body of the inner loop with the slot `array[j]` carried as `c`: at
each step `if array[j] > array[j + 1]` (that is, `c > b`) the two slots swap
and the larger value `c` moves on as the new carried slot, else `b` does. -/
def passAux (c : T) : List T → List T × Nat
  | [] => ([c], 0)
  | b :: rest =>
    if c > b then
      let p := passAux c rest
      (b :: p.1, p.2 + 1)
    else
      let p := passAux b rest
      (c :: p.1, p.2)

/-- One run of the inner loop `for j in 0..i { if array[j] > array[j + 1] {
array.swap(j, j + 1); no_swap = false; } }`, acting on the list of the first
`i + 1` slots; returns the updated slots and the number of swaps. -/
def pass : List T → List T × Nat
  | [] => ([], 0)
  | a :: rest => passAux a rest

/-- The outer loop: the fuel is `i + 1`, the length of the slice the next pass
covers; `if no_swap break` is the early exit when a pass made `0` swaps. -/
def run : Nat → List T → List T × Nat
  | 0, l => (l, 0)
  | n + 1, l =>
    let p := pass (l.take (n + 1))
    let l2 := p.1 ++ l.drop (n + 1)
    if p.2 = 0 then (l2, 0)
    else
      let q := run n l2
      (q.1, p.2 + q.2)

/-- `bubble_sort::sort` (the in-place slice after the call). -/
def sort (l : List T) : List T := (run l.length l).1

/-- Total number of `array.swap` calls `bubble_sort::sort` performs. -/
def swapCount (l : List T) : Nat := (run l.length l).2

theorem passAux_perm (c : T) (l : List T) : (passAux c l).1.Perm (c :: l) := by
  induction l generalizing c with
  | nil => simp [passAux]
  | cons b rest ih =>
    unfold passAux
    by_cases hab : c > b
    · simp only [if_pos hab]
      exact ((ih c).cons b).trans (List.Perm.swap c b rest)
    · simp only [if_neg hab]
      exact (ih b).cons c

theorem pass_perm (l : List T) : (pass l).1.Perm l := by
  cases l with
  | nil => simp [pass]
  | cons a rest => exact passAux_perm a rest

theorem passAux_count_zero {c : T} {l : List T} (h : (passAux c l).2 = 0) :
    (passAux c l).1 = c :: l ∧ (c :: l).Sorted (· ≤ ·) := by
  induction l generalizing c with
  | nil => simp [passAux]
  | cons b rest ih =>
    unfold passAux at h ⊢
    by_cases hab : c > b
    · simp [if_pos hab] at h
    · simp only [if_neg hab] at h ⊢
      obtain ⟨h1, h2⟩ := ih h
      refine ⟨by rw [h1], ?_⟩
      rw [List.sorted_cons] at h2
      rw [List.sorted_cons]
      refine ⟨?_, List.sorted_cons.2 h2⟩
      intro y hy
      rcases List.mem_cons.1 hy with rfl | hy
      · exact le_of_not_lt hab
      · exact (le_of_not_lt hab).trans (h2.1 y hy)

theorem pass_count_zero {l : List T} (h : (pass l).2 = 0) :
    (pass l).1 = l ∧ l.Sorted (· ≤ ·) := by
  cases l with
  | nil => simp [pass]
  | cons a rest => exact passAux_count_zero h

theorem passAux_of_sorted {c : T} {l : List T} (h : (c :: l).Sorted (· ≤ ·)) :
    passAux c l = (c :: l, 0) := by
  induction l generalizing c with
  | nil => simp [passAux]
  | cons b rest ih =>
    rw [List.sorted_cons] at h
    have hab : ¬ c > b := not_lt.2 (h.1 b (by simp))
    have hbs : (b :: rest).Sorted (· ≤ ·) := h.2
    unfold passAux
    rw [if_neg hab, ih hbs]

theorem pass_of_sorted {l : List T} (h : l.Sorted (· ≤ ·)) : pass l = (l, 0) := by
  cases l with
  | nil => simp [pass]
  | cons a rest => exact passAux_of_sorted h

theorem passAux_last_max (c : T) (l : List T) :
    ∃ l' m, (passAux c l).1 = l' ++ [m] ∧ ∀ x ∈ c :: l, x ≤ m := by
  induction l generalizing c with
  | nil => exact ⟨[], c, by simp [passAux], by simp⟩
  | cons b rest ih =>
    unfold passAux
    by_cases hab : c > b
    · obtain ⟨l', m, h1, h2⟩ := ih c
      refine ⟨b :: l', m, by simp [if_pos hab, h1], ?_⟩
      intro x hx
      rcases List.mem_cons.1 hx with rfl | hx
      · exact h2 x (by simp)
      · rcases List.mem_cons.1 hx with rfl | hx
        · exact (le_of_lt hab).trans (h2 c (by simp))
        · exact h2 x (by simp [hx])
    · obtain ⟨l', m, h1, h2⟩ := ih b
      refine ⟨c :: l', m, by simp [if_neg hab, h1], ?_⟩
      intro x hx
      rcases List.mem_cons.1 hx with rfl | hx
      · exact (le_of_not_lt hab).trans (h2 b (by simp))
      · exact h2 x hx

theorem pass_last_max {l : List T} (h : l ≠ []) :
    ∃ l' m, (pass l).1 = l' ++ [m] ∧ ∀ x ∈ l, x ≤ m := by
  cases l with
  | nil => exact absurd rfl h
  | cons a rest => exact passAux_last_max a rest

theorem run_correct (fuel : Nat) (l : List T) (hfl : fuel ≤ l.length)
    (hsd : (l.drop fuel).Sorted (· ≤ ·))
    (hcross : ∀ x ∈ l.take fuel, ∀ y ∈ l.drop fuel, x ≤ y) :
    (run fuel l).1.Perm l ∧ (run fuel l).1.Sorted (· ≤ ·) := by
  induction fuel generalizing l with
  | zero => exact ⟨List.Perm.refl l, by simpa using hsd⟩
  | succ n ih =>
    unfold run
    by_cases hz : (pass (l.take (n + 1))).2 = 0
    · simp only [if_pos hz]
      obtain ⟨heq, hsort⟩ := pass_count_zero hz
      rw [heq, List.take_append_drop]
      refine ⟨List.Perm.refl l, ?_⟩
      conv_rhs => rw [← List.take_append_drop (n + 1) l]
      rw [List.Sorted, List.pairwise_append]
      exact ⟨hsort, hsd, hcross⟩
    · simp only [if_neg hz]
      have htne : l.take (n + 1) ≠ [] := by
        have : (l.take (n + 1)).length = n + 1 := List.length_take_of_le hfl
        intro hc
        rw [hc] at this
        simp at this
      obtain ⟨l', m, hdec, hmax⟩ := pass_last_max htne
      have hpl : (pass (l.take (n + 1))).1.Perm (l.take (n + 1)) := pass_perm _
      have hlen' : l'.length = n := by
        have h1 : (pass (l.take (n + 1))).1.length = n + 1 := by
          rw [hpl.length_eq, List.length_take_of_le hfl]
        rw [hdec] at h1
        simp at h1
        exact h1
      have hmem : ∀ x ∈ (pass (l.take (n + 1))).1, x ∈ l.take (n + 1) :=
        fun x hx => hpl.mem_iff.1 hx
      set l2 := (pass (l.take (n + 1))).1 ++ l.drop (n + 1) with hl2
      have hl2eq : l2 = l' ++ ([m] ++ l.drop (n + 1)) := by
        rw [hl2, hdec, List.append_assoc]
      have hlen2 : l2.length = l.length := by
        rw [hl2, List.length_append, hpl.length_eq, List.length_take_of_le hfl,
          List.length_drop]
        omega
      have hdrop2 : l2.drop n = m :: l.drop (n + 1) := by
        rw [hl2eq, ← hlen', List.drop_left]
        simp
      have htake2 : l2.take n = l' := by
        rw [hl2eq, ← hlen', List.take_left]
      have hperm2 : l2.Perm l := by
        conv_rhs => rw [← List.take_append_drop (n + 1) l]
        exact hpl.append_right _
      have hrec := ih l2 (by omega) ?_ ?_
      · refine ⟨hrec.1.trans hperm2, hrec.2⟩
      · rw [hdrop2, List.Sorted, List.pairwise_cons]
        refine ⟨?_, hsd⟩
        intro y hy
        have hm : m ∈ l.take (n + 1) := hmem m (by rw [hdec]; simp)
        exact hcross m hm y hy
      · intro x hx y hy
        rw [htake2] at hx
        have hxt : x ∈ l.take (n + 1) := hmem x (by rw [hdec]; simp [hx])
        rw [hdrop2] at hy
        rcases List.mem_cons.1 hy with rfl | hy
        · exact hmax x hxt
        · exact hcross x hxt y hy

theorem sort_bubble_correct (l : List T) : (sort l).Perm l ∧ (sort l).Sorted (· ≤ ·) := by
  have := run_correct l.length l le_rfl (by simp) (by simp)
  exact this

theorem swapCount_sorted {l : List T} (h : l.Sorted (· ≤ ·)) :
    swapCount l = 0 ∧ sort l = l := by
  cases l with
  | nil => exact ⟨rfl, rfl⟩
  | cons a t =>
    have hpass : pass ((a :: t).take (t.length + 1)) = (a :: t, 0) := by
      rw [List.take_of_length_le (by simp)]
      exact pass_of_sorted h
    constructor
    · show (run (a :: t).length (a :: t)).2 = 0
      simp only [List.length_cons]
      unfold run
      rw [hpass]
      simp
    · show (run (a :: t).length (a :: t)).1 = a :: t
      simp only [List.length_cons]
      unfold run
      rw [hpass]
      simp

end bubble_sort

/-! ## Insertion sort (`sort/insertion_sort.rs`)

For each `i` in `1..len`, the Rust `sort` clones `current_value = array[i]`
and walks `j` leftward from `i - 1`, swapping `array[j + 1]` with `array[j]`
while `array[j] > current_value`; `j.checked_sub(1)` breaks the walk at slot 0.
Since `current_value` always sits at slot `j + 1`, the walk moves it leftward
past the maximal run of larger elements.

Two embeddings are given: `insertion_sort.sort` represents the processed
left part in reversed order (`bubbleLeft` is the while loop seen from the
moving element), and `insertion_sort.sortChecked` is the same code at the
index level where every slot access is bounds-checked and the `checked_sub`
is explicit; `sortChecked_eq_sort` proves they agree and that no check ever
fails. -/

namespace insertion_sort

variable {T : Type} [LinearOrder T]

/-- The `while array[j] > current_value` loop seen from the moving element
`x`: `rev` is the processed left part in reversed order (so its head is
`array[j]`); a swap moves `x` past the head, otherwise the walk stops with
`x` placed right of the head. -/
def bubbleLeft : List T → T → List T
  | [], x => [x]
  | a :: rest, x => if a > x then a :: bubbleLeft rest x else x :: a :: rest

/-- The outer `for i in 1..array.len()` loop: `rev` is the reversed processed
left part, the second argument the slots not yet reached. -/
def go : List T → List T → List T
  | rev, [] => rev.reverse
  | rev, x :: rest => go (bubbleLeft rev x) rest

/-- `insertion_sort::sort` (the in-place slice after the call); the first
element alone is the initial processed part. -/
def sort : List T → List T
  | [] => []
  | a :: rest => go [a] rest

/-- `array.swap(i, j)` with both slot reads bounds-checked. -/
def swapChecked (arr : List T) (i j : Nat) : Option (List T) :=
  match arr[i]?, arr[j]? with
  | some a, some b => some ((arr.set i b).set j a)
  | _, _ => none

/-- The inner while loop at the index level: every `array[j]` read is
bounds-checked and the `let Some(new_j) = j.checked_sub(1) else break` is the
`0` case of the match on `j`. -/
def innerChecked : List T → Nat → T → Option (List T)
  | arr, j, cur =>
    match arr[j]? with
    | none => none
    | some aj =>
      if aj > cur then
        match swapChecked arr (j + 1) j with
        | none => none
        | some arr2 =>
          match j with
          | 0 => some arr2
          | j' + 1 => innerChecked arr2 j' cur
      else some arr

/-- One iteration of the outer loop: read `current_value = array[i]`
(bounds-checked) and run the inner walk from `j = i - 1`. -/
def stepChecked (arr : List T) (i : Nat) : Option (List T) :=
  match arr[i]? with
  | none => none
  | some cur => innerChecked arr (i - 1) cur

/-- `insertion_sort::sort` at the index level: `for i in 1..array.len()` is
the fold over `List.range' 1 (array.length - 1)`; `none` marks an
out-of-bounds slot access that the Rust code would have to fault on. -/
def sortChecked (arr : List T) : Option (List T) :=
  (List.range' 1 (arr.length - 1)).foldlM stepChecked arr

end insertion_sort

/-! ## Selection sort (`sort/selection_sort.rs`)

For each `i` in `0..len` the Rust `sort` scans `j` over `i..len` keeping the
index `lowest` of the smallest slot seen (strict `>` keeps the earliest), then
swaps slots `i` and `lowest` if they differ. The embedding works on the suffix
starting at `i`, with indices relative to the suffix. -/

namespace selection_sort

variable {T : Type} [LinearOrder T]

/-- The inner scan `for j in i..len { if array[lowest] > array[j] { lowest =
j } }`, carrying the running lowest slot's (relative) index and value; the
`j = i` iteration compares the start slot with itself and never updates, so
the scan starts on the elements after it at relative index 1. -/
def scanLowest : Nat → T → Nat → List T → Nat × T
  | bestIdx, best, _, [] => (bestIdx, best)
  | bestIdx, best, cur, y :: rest =>
    if best > y then scanLowest cur y (cur + 1) rest
    else scanLowest bestIdx best (cur + 1) rest

/-- `array.swap(i, j)`: out-of-bounds indices leave the list unchanged (they
never occur; the safety of the analogous accesses is settled for the
insertion sort, whose embedding keeps the checks). -/
def listSwap (l : List T) (i j : Nat) : List T :=
  match l[i]?, l[j]? with
  | some a, some b => (l.set i b).set j a
  | _, _ => l

/-- One outer iteration acting on the suffix `array[i..]`: find the lowest
slot, then `if lowest != i { array.swap(i, lowest) }`. -/
def selectStep : List T → List T
  | [] => []
  | a :: rest =>
    let s := scanLowest 0 a 1 rest
    if s.1 = 0 then a :: rest
    else listSwap (a :: rest) 0 s.1

/-- The outer `for i in 0..array.len()` loop: each iteration fixes the front
of the current suffix; the fuel is the number of remaining iterations. -/
def go : Nat → List T → List T
  | 0, l => l
  | _ + 1, [] => []
  | fuel + 1, a :: rest =>
    match selectStep (a :: rest) with
    | [] => []
    | b :: t => b :: go fuel t

/-- `selection_sort::sort` (the in-place slice after the call). -/
def sort (l : List T) : List T := go l.length l

end selection_sort

/-! Index-arithmetic facts about `List.set` / slot reads used to relate the
index-level embeddings to the structural ones. -/

theorem getElem?_append_len {α : Type} (P : List α) (x : α) (rest : List α) :
    (P ++ x :: rest)[P.length]? = some x := by
  induction P with
  | nil => simp
  | cons p P ih => simpa using ih

theorem set_append_len {α : Type} (P : List α) (x y : α) (rest : List α) :
    (P ++ x :: rest).set P.length y = P ++ y :: rest := by
  induction P with
  | nil => rfl
  | cons p P ih => simpa using ih

namespace insertion_sort

variable {T : Type} [LinearOrder T]

theorem bubbleLeft_perm (rev : List T) (x : T) : (bubbleLeft rev x).Perm (x :: rev) := by
  induction rev with
  | nil => simp [bubbleLeft]
  | cons a rest ih =>
    unfold bubbleLeft
    by_cases h : a > x
    · simp only [if_pos h]
      exact (ih.cons a).trans (List.Perm.swap x a rest)
    · simp only [if_neg h]
      exact List.Perm.refl _

theorem bubbleLeft_sorted {rev : List T} (h : rev.Sorted (· ≥ ·)) (x : T) :
    (bubbleLeft rev x).Sorted (· ≥ ·) := by
  induction rev with
  | nil => simp [bubbleLeft]
  | cons a rest ih =>
    rw [List.sorted_cons] at h
    unfold bubbleLeft
    by_cases hax : a > x
    · rw [if_pos hax, List.sorted_cons]
      refine ⟨?_, ih h.2⟩
      intro y hy
      have hmem : y ∈ x :: rest := (bubbleLeft_perm rest x).mem_iff.1 hy
      rcases List.mem_cons.1 hmem with rfl | hyr
      · exact le_of_lt hax
      · exact h.1 y hyr
    · rw [if_neg hax, List.sorted_cons]
      refine ⟨?_, List.sorted_cons.2 h⟩
      intro y hy
      rcases List.mem_cons.1 hy with rfl | hyr
      · exact le_of_not_lt hax
      · exact (h.1 y hyr).trans (le_of_not_lt hax)

theorem go_insertion_correct {rev : List T} (hrev : rev.Sorted (· ≥ ·)) (l : List T) :
    (go rev l).Perm (rev.reverse ++ l) ∧ (go rev l).Sorted (· ≤ ·) := by
  induction l generalizing rev with
  | nil =>
    refine ⟨by simp [go], ?_⟩
    simp only [go]
    rw [List.Sorted, List.pairwise_reverse]
    exact hrev
  | cons x rest ih =>
    simp only [go]
    obtain ⟨hp, hs⟩ := ih (bubbleLeft_sorted hrev x)
    refine ⟨hp.trans ?_, hs⟩
    have p1 : ((bubbleLeft rev x).reverse ++ rest).Perm (bubbleLeft rev x ++ rest) :=
      ((bubbleLeft rev x).reverse_perm).append_right rest
    have p2 : (bubbleLeft rev x ++ rest).Perm (x :: (rev ++ rest)) :=
      (bubbleLeft_perm rev x).append_right rest
    have p3 : (x :: (rev ++ rest)).Perm (rev ++ x :: rest) := List.perm_middle.symm
    have p4 : (rev ++ x :: rest).Perm (rev.reverse ++ x :: rest) :=
      (rev.reverse_perm.symm).append_right _
    exact ((p1.trans p2).trans p3).trans p4

theorem sort_insertion_correct (l : List T) : (sort l).Perm l ∧ (sort l).Sorted (· ≤ ·) := by
  cases l with
  | nil => exact ⟨List.Perm.refl _, List.sorted_nil⟩
  | cons a rest =>
    have h := go_insertion_correct (show ([a] : List T).Sorted (· ≥ ·) by simp) rest
    simpa [sort] using h

end insertion_sort

theorem insertion_sort.innerChecked_eq {T : Type} [LinearOrder T] :
    ∀ (R B : List T) (cur : T), R ≠ [] →
      insertion_sort.innerChecked (R.reverse ++ cur :: B) (R.length - 1) cur
        = some ((insertion_sort.bubbleLeft R cur).reverse ++ B) := by
  intro R
  induction R with
  | nil => exact fun B cur h => absurd rfl h
  | cons a R' ih =>
    intro B cur _
    have harr : (a :: R').reverse ++ cur :: B = R'.reverse ++ a :: cur :: B := by
      simp
    have hj : (a :: R').length - 1 = R'.length := by simp
    rw [harr, hj]
    rw [insertion_sort.innerChecked]
    have hlenrev : R'.reverse.length = R'.length := by simp
    have hget : (R'.reverse ++ a :: cur :: B)[R'.length]? = some a := by
      rw [← hlenrev]
      exact getElem?_append_len R'.reverse a (cur :: B)
    rw [hget]
    by_cases hax : a > cur
    · simp only [if_pos hax]
      have hsplit : R'.reverse ++ a :: cur :: B = (R'.reverse ++ [a]) ++ cur :: B := by
        simp
      have hget2 : (R'.reverse ++ a :: cur :: B)[R'.length + 1]? = some cur := by
        rw [hsplit]
        have hl : (R'.reverse ++ [a]).length = R'.length + 1 := by simp
        rw [← hl]
        exact getElem?_append_len (R'.reverse ++ [a]) cur B
      have hswap : insertion_sort.swapChecked (R'.reverse ++ a :: cur :: B)
          (R'.length + 1) R'.length = some (R'.reverse ++ cur :: a :: B) := by
        simp only [insertion_sort.swapChecked, hget2, hget]
        have e1 : (R'.reverse ++ a :: cur :: B).set (R'.length + 1) a
            = R'.reverse ++ a :: a :: B := by
          rw [hsplit]
          have hl : (R'.reverse ++ [a]).length = R'.length + 1 := by simp
          rw [← hl, set_append_len (R'.reverse ++ [a]) cur a B]
          simp
        rw [e1]
        have e2 : (R'.reverse ++ a :: a :: B).set R'.length cur
            = R'.reverse ++ cur :: a :: B := by
          rw [← hlenrev, set_append_len R'.reverse a cur (a :: B)]
        rw [e2]
      rw [hswap]
      cases R' with
      | nil =>
        simp [insertion_sort.bubbleLeft, if_pos hax]
      | cons r rs =>
        have hrec := ih (a :: B) cur (by simp)
        have hlen' : (r :: rs).length - 1 = rs.length := by simp
        rw [hlen'] at hrec
        show insertion_sort.innerChecked ((r :: rs).reverse ++ cur :: a :: B) rs.length cur
          = some ((insertion_sort.bubbleLeft (a :: r :: rs) cur).reverse ++ B)
        rw [hrec]
        simp [insertion_sort.bubbleLeft, if_pos hax]
    · simp only [if_neg hax]
      simp [insertion_sort.bubbleLeft, if_neg hax]

theorem insertion_sort.foldlM_range'_eq {T : Type} [LinearOrder T] :
    ∀ (rest rev : List T), rev ≠ [] →
      (List.range' rev.length rest.length).foldlM insertion_sort.stepChecked
          (rev.reverse ++ rest) = some (insertion_sort.go rev rest) := by
  intro rest
  induction rest with
  | nil =>
    intro rev _
    simp [insertion_sort.go]
  | cons x rest' ih =>
    intro rev hne
    simp only [List.length_cons]
    rw [List.range'_succ, List.foldlM_cons]
    have hget : (rev.reverse ++ x :: rest')[rev.length]? = some x := by
      have hl : rev.reverse.length = rev.length := by simp
      rw [← hl]
      exact getElem?_append_len rev.reverse x rest'
    have hstep : insertion_sort.stepChecked (rev.reverse ++ x :: rest') rev.length
        = some ((insertion_sort.bubbleLeft rev x).reverse ++ rest') := by
      rw [insertion_sort.stepChecked, hget]
      exact insertion_sort.innerChecked_eq rev rest' x hne
    rw [hstep]
    have hlen : (insertion_sort.bubbleLeft rev x).length = rev.length + 1 := by
      rw [(insertion_sort.bubbleLeft_perm rev x).length_eq]
      simp
    have hne' : insertion_sort.bubbleLeft rev x ≠ [] := by
      intro hc
      rw [hc] at hlen
      simp at hlen
    have hrec := ih (insertion_sort.bubbleLeft rev x) hne'
    rw [hlen] at hrec
    show (List.range' (rev.length + 1) rest'.length).foldlM insertion_sort.stepChecked
        ((insertion_sort.bubbleLeft rev x).reverse ++ rest')
      = some (insertion_sort.go rev (x :: rest'))
    rw [hrec]
    rw [insertion_sort.go]

theorem insertion_sort.sortChecked_eq_sort {T : Type} [LinearOrder T] (l : List T) :
    insertion_sort.sortChecked l = some (insertion_sort.sort l) := by
  cases l with
  | nil => rfl
  | cons a rest =>
    rw [insertion_sort.sortChecked]
    have hl : (a :: rest : List T).length - 1 = rest.length := by simp
    rw [hl]
    have h := insertion_sort.foldlM_range'_eq rest [a] (by simp)
    simpa [insertion_sort.sort] using h

namespace selection_sort

variable {T : Type} [LinearOrder T]

theorem scanLowest_spec (rest : List T) :
    ∀ (best : T) (bestIdx cur : Nat),
      ((scanLowest bestIdx best cur rest).2 ≤ best ∧
        ∀ y ∈ rest, (scanLowest bestIdx best cur rest).2 ≤ y) ∧
      (((scanLowest bestIdx best cur rest).1 = bestIdx ∧
          (scanLowest bestIdx best cur rest).2 = best) ∨
        ∃ d, d < rest.length ∧ (scanLowest bestIdx best cur rest).1 = cur + d ∧
          rest[d]? = some (scanLowest bestIdx best cur rest).2) := by
  induction rest with
  | nil =>
    intro best bestIdx cur
    exact ⟨⟨le_refl _, by simp⟩, Or.inl ⟨rfl, rfl⟩⟩
  | cons y rest' ih =>
    intro best bestIdx cur
    unfold scanLowest
    by_cases hby : best > y
    · simp only [if_pos hby]
      obtain ⟨⟨hm1, hm2⟩, hidx⟩ := ih y cur (cur + 1)
      refine ⟨⟨hm1.trans (le_of_lt hby), ?_⟩, ?_⟩
      · intro z hz
        rcases List.mem_cons.1 hz with rfl | hz
        · exact hm1
        · exact hm2 z hz
      · rcases hidx with ⟨h1, h2⟩ | ⟨d, hd, hc, hv⟩
        · exact Or.inr ⟨0, by simp, by omega, by simpa using h2.symm⟩
        · exact Or.inr ⟨d + 1, by simpa using hd, by omega, by simpa using hv⟩
    · simp only [if_neg hby]
      obtain ⟨⟨hm1, hm2⟩, hidx⟩ := ih best bestIdx (cur + 1)
      refine ⟨⟨hm1, ?_⟩, ?_⟩
      · intro z hz
        rcases List.mem_cons.1 hz with rfl | hz
        · exact hm1.trans (le_of_not_lt hby)
        · exact hm2 z hz
      · rcases hidx with ⟨h1, h2⟩ | ⟨d, hd, hc, hv⟩
        · exact Or.inl ⟨h1, h2⟩
        · exact Or.inr ⟨d + 1, by simpa using hd, by omega, by simpa using hv⟩

theorem listSwap_zero (a m : T) (P B : List T) :
    listSwap (a :: (P ++ m :: B)) 0 (P.length + 1) = m :: (P ++ a :: B) := by
  unfold listSwap
  have h0 : (a :: (P ++ m :: B))[0]? = some a := by simp
  have hk : (a :: (P ++ m :: B))[P.length + 1]? = some m := by
    have := getElem?_append_len (a :: P) m B
    simpa using this
  rw [h0, hk]
  have e1 : (a :: (P ++ m :: B)).set 0 m = m :: (P ++ m :: B) := rfl
  simp only [e1]
  have e2 : (m :: (P ++ m :: B)).set (P.length + 1) a = m :: (P ++ a :: B) := by
    have := set_append_len (m :: P) m a B
    simpa using this
  simp only [e2]

theorem selectStep_spec {l : List T} (hl : l ≠ []) :
    ∃ m t, selectStep l = m :: t ∧ (m :: t).Perm l ∧ ∀ x ∈ l, m ≤ x := by
  match l, hl with
  | a :: rest, _ =>
    simp only [selectStep]
    obtain ⟨⟨hm1, hm2⟩, hidx⟩ := scanLowest_spec rest a 0 1
    by_cases hk : (scanLowest 0 a 1 rest).1 = 0
    · rw [if_pos hk]
      refine ⟨a, rest, rfl, List.Perm.refl _, ?_⟩
      rcases hidx with ⟨_, hv⟩ | ⟨d, _, hc, _⟩
      · intro x hx
        rcases List.mem_cons.1 hx with rfl | hx
        · exact le_refl x
        · exact hv ▸ hm2 x hx
      · omega
    · rw [if_neg hk]
      rcases hidx with ⟨h0, _⟩ | ⟨d, hd, hc, hv⟩
      · exact absurd h0 hk
      · have hdle : d ≤ rest.length := le_of_lt hd
        have hgetd : rest[d] = (scanLowest 0 a 1 rest).2 := by
          have := List.getElem?_eq_some_iff.1 hv
          obtain ⟨hlt, hvv⟩ := this
          exact hvv
        have hdecomp : rest = rest.take d ++ (scanLowest 0 a 1 rest).2 :: rest.drop (d + 1) := by
          conv_lhs => rw [← List.take_append_drop d rest]
          rw [List.drop_eq_getElem_cons hd, hgetd]
        have hlen : (rest.take d).length = d := List.length_take_of_le hdle
        have hsw0 := listSwap_zero a (scanLowest 0 a 1 rest).2 (rest.take d)
          (rest.drop (d + 1))
        rw [hlen] at hsw0
        have hswap : listSwap (a :: rest) 0 (scanLowest 0 a 1 rest).1
            = (scanLowest 0 a 1 rest).2 :: (rest.take d ++ a :: rest.drop (d + 1)) := by
          rw [hc, Nat.add_comm 1 d]
          conv_lhs => rw [hdecomp]
          exact hsw0
        refine ⟨(scanLowest 0 a 1 rest).2, rest.take d ++ a :: rest.drop (d + 1), hswap, ?_, ?_⟩
        · have p1 : ((scanLowest 0 a 1 rest).2 :: (rest.take d ++ a :: rest.drop (d + 1))).Perm
              ((scanLowest 0 a 1 rest).2 :: a :: (rest.take d ++ rest.drop (d + 1))) :=
            List.Perm.cons _ List.perm_middle
          have p2 : ((scanLowest 0 a 1 rest).2 :: a :: (rest.take d ++ rest.drop (d + 1))).Perm
              (a :: (scanLowest 0 a 1 rest).2 :: (rest.take d ++ rest.drop (d + 1))) :=
            List.Perm.swap _ _ _
          have p3 : (a :: (scanLowest 0 a 1 rest).2 :: (rest.take d ++ rest.drop (d + 1))).Perm
              (a :: (rest.take d ++ (scanLowest 0 a 1 rest).2 :: rest.drop (d + 1))) :=
            List.Perm.cons _ List.perm_middle.symm
          refine ((p1.trans p2).trans p3).trans ?_
          rw [← hdecomp]
        · intro x hx
          rcases List.mem_cons.1 hx with rfl | hx
          · exact hm1
          · exact hm2 x hx

theorem go_selection_correct (fuel : Nat) :
    ∀ l : List T, l.length ≤ fuel →
      (go fuel l).Perm l ∧ (go fuel l).Sorted (· ≤ ·) := by
  induction fuel with
  | zero =>
    intro l h
    have : l = [] := List.eq_nil_of_length_eq_zero (Nat.le_zero.1 h)
    subst this
    simp [go]
  | succ n ih =>
    intro l hlen
    match l with
    | [] => simp [go]
    | a :: rest =>
      obtain ⟨m, t, hstep, hperm, hmin⟩ := selectStep_spec (show (a :: rest : List T) ≠ [] by simp)
      unfold go
      rw [hstep]
      have hlt : t.length ≤ n := by
        have h1 := hperm.length_eq
        simp only [List.length_cons] at h1 hlen
        omega
      obtain ⟨hp, hs⟩ := ih t hlt
      constructor
      · exact (hp.cons m).trans hperm
      · rw [List.sorted_cons]
        refine ⟨?_, hs⟩
        intro y hy
        have hyt : y ∈ t := hp.mem_iff.1 hy
        exact hmin y (hperm.mem_iff.1 (List.mem_cons_of_mem m hyt))

theorem sort_selection_correct (l : List T) : (sort l).Perm l ∧ (sort l).Sorted (· ≤ ·) :=
  go_selection_correct l.length l le_rfl

end selection_sort

/-! ## Doubly linked list (`doubly_linked_list.rs`)

The Rust list owns its nodes through `Link<T> = Rc<RefCell<Node<T>>>`. The
embedding makes the heap explicit: a `Store T` maps addresses (`Nat`) to
allocated nodes, `head`/`tail` and the per-node `next`/`previous` are
`Option Nat` pointers, `fresh` is the allocation counter (a fresh address per
`Rc::new`), and dropping a node (`Rc::into_inner`) deletes it from the store.
Branches labelled "dangling: cannot arise" read an address whose node is
absent, which an `Rc` cannot express; they return the unchanged list and are
unreachable from well-formed states. -/

namespace dll

/-- `Node<T>` (lines 5-9): a value plus optional `next` and `previous` links. -/
structure Node (T : Type) where
  value : T
  next : Option Nat
  previous : Option Nat

/-- The explicit heap standing for the graph of `Rc` allocations. -/
abbrev Store (T : Type) := Nat → Option (Node T)

/-- Overwrite (or with `none`: free) the node at address `a`. -/
def Store.set (s : Store T) (a : Nat) (n : Option (Node T)) : Store T :=
  fun b => if b = a then n else s b

/-- `DoublyLinkedList<T>` (lines 21-25) plus the explicit heap and the
allocation counter. -/
structure DoublyLinkedList (T : Type) where
  length : Nat
  head : Option Nat
  tail : Option Nat
  store : Store T
  fresh : Nat

/-- `DoublyLinkedList::new`/`default` (lines 27-40): empty list, empty heap. -/
def new : DoublyLinkedList T :=
  { length := 0, head := none, tail := none, store := fun _ => none, fresh := 0 }

/-- `push` (lines 62-75): allocate a node holding `value`; a non-empty list
links `old_tail.next` to it and its `previous` to `old_tail`; an empty list
makes it both head and tail; the length increments. -/
def DoublyLinkedList.push (l : DoublyLinkedList T) (value : T) : DoublyLinkedList T :=
  let addr := l.fresh
  match l.tail with
  | some t =>
    match l.store t with
    | some oldTail =>
      { length := l.length + 1, head := l.head, tail := some addr,
        store := (l.store.set t (some { oldTail with next := some addr })).set addr
          (some ⟨value, none, some t⟩),
        fresh := addr + 1 }
    | none => l
  | none =>
    { length := l.length + 1, head := some addr, tail := some addr,
      store := l.store.set addr (some ⟨value, none, none⟩), fresh := addr + 1 }

/-- `pop` (lines 77-95): take the tail; if it has a predecessor that node
loses its `next` link and becomes the tail, otherwise the list empties; the
length decrements and the old tail node is consumed (`Rc::into_inner`). -/
def DoublyLinkedList.pop (l : DoublyLinkedList T) : Option T × DoublyLinkedList T :=
  match l.tail with
  | none => (none, l)
  | some t =>
    match l.store t with
    | none => (none, l)
    | some oldTail =>
      let s1 := l.store.set t none
      match oldTail.previous with
      | some p =>
        match s1 p with
        | some newTail =>
          (some oldTail.value,
            { length := l.length - 1, head := l.head, tail := some p,
              store := s1.set p (some { newTail with next := none }), fresh := l.fresh })
        | none =>
          (some oldTail.value,
            { length := l.length - 1, head := l.head, tail := some p, store := s1,
              fresh := l.fresh })
      | none =>
        (some oldTail.value,
          { length := l.length - 1, head := none, tail := none, store := s1,
            fresh := l.fresh })

/-- `shift` (lines 97-110): symmetric to `push` at the head. -/
def DoublyLinkedList.shift (l : DoublyLinkedList T) (value : T) : DoublyLinkedList T :=
  let addr := l.fresh
  match l.head with
  | some h =>
    match l.store h with
    | some oldHead =>
      { length := l.length + 1, head := some addr, tail := l.tail,
        store := (l.store.set h (some { oldHead with previous := some addr })).set addr
          (some ⟨value, some h, none⟩),
        fresh := addr + 1 }
    | none => l
  | none =>
    { length := l.length + 1, head := some addr, tail := some addr,
      store := l.store.set addr (some ⟨value, none, none⟩), fresh := addr + 1 }

/-- `unshift` (lines 112-130): symmetric to `pop` at the head. -/
def DoublyLinkedList.unshift (l : DoublyLinkedList T) : Option T × DoublyLinkedList T :=
  match l.head with
  | none => (none, l)
  | some h =>
    match l.store h with
    | none => (none, l)
    | some oldHead =>
      let s1 := l.store.set h none
      match oldHead.next with
      | some nh =>
        match s1 nh with
        | some newHead =>
          (some oldHead.value,
            { length := l.length - 1, head := some nh, tail := l.tail,
              store := s1.set nh (some { newHead with previous := none }),
              fresh := l.fresh })
        | none =>
          (some oldHead.value,
            { length := l.length - 1, head := some nh, tail := l.tail, store := s1,
              fresh := l.fresh })
      | none =>
        (some oldHead.value,
          { length := l.length - 1, head := none, tail := none, store := s1,
            fresh := l.fresh })

/-- The walk loop shared by `set`, `remove` and `get`:
`while let Some(next) = current { if current_index == index { break; }
current = next.borrow().next; current_index += 1; }` — the pointer after `k`
advancements from `cur`, or `none` once the walk runs off the end. -/
def walkN (s : Store T) : Option Nat → Nat → Option Nat
  | cur, 0 => cur
  | cur, k + 1 =>
    match cur with
    | none => none
    | some a =>
      match s a with
      | none => none
      | some nd => walkN s nd.next k

/-- The walk-and-unlink branch of `remove` (lines 166-198): walk to `index`;
if a node is found, take its `previous`/`next`, link `previous.next` to
`next` and `next.previous` to `previous`, decrement the length and consume
the node; if the walk found nothing, return `None` without touching the
list. -/
def DoublyLinkedList.removeWalk (l : DoublyLinkedList T) (index : Nat) : Option T × DoublyLinkedList T :=
  match walkN l.store l.head index with
  | none => (none, l)
  | some a =>
    match l.store a with
    | none => (none, l)
    | some nd =>
      let s1 := l.store.set a none
      let s2 := match nd.previous with
        | some p =>
          match s1 p with
          | some pn => s1.set p (some { pn with next := nd.next })
          | none => s1
        | none => s1
      let s3 := match nd.next with
        | some q =>
          match s2 q with
          | some qn => s2.set q (some { qn with previous := nd.previous })
          | none => s2
        | none => s2
      (some nd.value,
        { length := l.length - 1, head := l.head, tail := l.tail, store := s3,
          fresh := l.fresh })

/-- `n - 1` on `usize` under the debug profile: subtracting from `0` is an
overflow panic, recorded as `none`. -/
def checkedPred (n : Nat) : Option Nat :=
  if n = 0 then none else some (n - 1)

/-- Bit width of `usize` on the 64-bit targets the crate builds for. -/
def usizeBits : Nat := 64

/-- `n - 1` on `usize` under the release profile: wrap-around two's
complement, `0 - 1 = 2 ^ 64 - 1`. -/
def usizeSub1 (n : Nat) : Nat :=
  (n + (2 ^ usizeBits - 1)) % 2 ^ usizeBits

/-- `remove` (lines 159-199): index `0` delegates to `unshift`; index
`self.len() - 1` delegates to `pop`; otherwise walk and unlink. The guard
computes `self.len() - 1` before any emptiness test, so on an empty list a
non-zero index underflows: under the debug profile (overflow checks on, the
`cargo test` default) that is a panic, recorded as `none`. -/
def DoublyLinkedList.remove (l : DoublyLinkedList T) (index : Nat) :
    Option (Option T × DoublyLinkedList T) :=
  if index = 0 then some l.unshift
  else
    match checkedPred l.length with
    | none => none
    | some lenPred =>
      if index = lenPred then some l.pop
      else some (l.removeWalk index)

/-- `remove` under the release profile (overflow checks off): the same code
with `self.len() - 1` wrapping around, hence total. -/
def DoublyLinkedList.removeWrap (l : DoublyLinkedList T) (index : Nat) : Option T × DoublyLinkedList T :=
  if index = 0 then l.unshift
  else if index = usizeSub1 l.length then l.pop
  else l.removeWalk index

/-- `get` (lines 221-238): guard `if index > self.len() { return None }`
(note `>`, not `>=`), then walk from the head and copy the found node's
value. -/
def DoublyLinkedList.get (l : DoublyLinkedList T) (index : Nat) : Option T :=
  if index > l.length then none
  else
    match walkN l.store l.head index with
    | none => none
    | some a =>
      match l.store a with
      | none => none
      | some nd => some nd.value

/-- `DoublyLinkedList::from` (lines 42-50): fold `push` over the vector. -/
def fromVec (array : List T) : DoublyLinkedList T :=
  array.foldl DoublyLinkedList.push new

/-- One mutating operation of the claimed API. -/
inductive Op (T : Type) where
  | push (v : T)
  | pop
  | shift (v : T)
  | unshift
  | remove (i : Nat)

/-- Run one operation, keeping the new list state; `none` records that the
operation panicked (only `remove`'s underflow can). -/
def applyOp (l : DoublyLinkedList T) : Op T → Option (DoublyLinkedList T)
  | .push v => some (l.push v)
  | .pop => some (l.pop).2
  | .shift v => some (l.shift v)
  | .unshift => some (l.unshift).2
  | .remove i => (l.remove i).map Prod.snd

/-- Run a sequence of operations from a starting state; `none` once any
operation panics. -/
def applyOps (l : DoublyLinkedList T) : List (Op T) → Option (DoublyLinkedList T)
  | [] => some l
  | op :: ops =>
    match applyOp l op with
    | none => none
    | some l2 => applyOps l2 ops

/-- Walks `n` nodes from `cur` checking the doubly-linked structure: each
node's `previous` equals the address of its predecessor (`prev`, `none`
before the head), successive nodes are reached by `next`, and after `n` nodes
the running pointer must be `none` (so the last node's `next` is empty and
exactly `n` nodes are reachable) with the last address seen equal to `tl`. -/
def chainCheck (s : Store T) : Option Nat → Option Nat → Option Nat → Nat → Bool
  | prev, cur, tl, 0 => cur == none && tl == prev
  | prev, cur, tl, n + 1 =>
    match cur with
    | none => false
    | some a =>
      match s a with
      | none => false
      | some nd => nd.previous == prev && chainCheck s (some a) nd.next tl n

/-- The C4 invariant, decidably: walking from `head` via `next` visits
exactly `length` nodes ending at `tail`, the head node's `previous` and the
tail node's `next` are empty, and adjacent nodes point at each other. -/
def structuralInvariantHolds (l : DoublyLinkedList T) : Bool :=
  chainCheck l.store none l.head l.tail l.length

/-- Drain the list by repeated `pop`, with enough fuel. -/
def popAll : Nat → DoublyLinkedList T → List T
  | 0, _ => []
  | n + 1, l =>
    match l.pop with
    | (none, _) => []
    | (some v, l2) => v :: popAll n l2

/-- `Seg s prevIn curIn curOut prevOut nodes`: from pointer `curIn`, whose
first node's `previous` must be `prevIn`, the address/value pairs `nodes`
form a doubly linked segment in `s`; leaving the segment the running pointer
is `curOut` (the last node's `next`) and the last address is `prevOut`
(`prevIn` when the segment is empty). -/
def Seg (s : Store T) : Option Nat → Option Nat → Option Nat → Option Nat →
    List (Nat × T) → Prop
  | prevIn, curIn, curOut, prevOut, [] => curOut = curIn ∧ prevOut = prevIn
  | prevIn, curIn, curOut, prevOut, (a, v) :: rest =>
    curIn = some a ∧
      match s a with
      | none => False
      | some nd =>
        nd.value = v ∧ nd.previous = prevIn ∧ Seg s (some a) nd.next curOut prevOut rest

/-- The abstraction relation: `nodes` lists the chain's addresses and values
from head to tail; the cached length agrees, addresses are distinct and below
the allocation counter, and the store holds nothing else. -/
def Models (l : DoublyLinkedList T) (nodes : List (Nat × T)) : Prop :=
  Seg l.store none l.head none l.tail nodes ∧
  l.length = nodes.length ∧
  (nodes.map Prod.fst).Nodup ∧
  (∀ p ∈ nodes, p.1 < l.fresh) ∧
  ∀ a, a ∉ nodes.map Prod.fst → l.store a = none

end dll

namespace dll

variable {T : Type}

theorem store_set_same (s : Store T) (a : Nat) (n : Option (Node T)) :
    (s.set a n) a = n := by
  simp [Store.set]

theorem store_set_other (s : Store T) {a b : Nat} (h : b ≠ a) (n : Option (Node T)) :
    (s.set a n) b = s b := by
  simp [Store.set, h]

theorem seg_nil {s : Store T} {p c c' p' : Option Nat} :
    Seg s p c c' p' [] ↔ c' = c ∧ p' = p :=
  Iff.rfl

theorem seg_cons {s : Store T} {p c c' p' : Option Nat} {a : Nat} {v : T}
    {rest : List (Nat × T)} :
    Seg s p c c' p' ((a, v) :: rest) ↔
      c = some a ∧ ∃ nd, s a = some nd ∧ nd.value = v ∧ nd.previous = p ∧
        Seg s (some a) nd.next c' p' rest := by
  have heq : Seg s p c c' p' ((a, v) :: rest) = (c = some a ∧
      match s a with
      | none => False
      | some nd => nd.value = v ∧ nd.previous = p ∧ Seg s (some a) nd.next c' p' rest) :=
    rfl
  rw [heq]
  cases h : s a with
  | none => simp [h]
  | some nd => simp [h]

theorem seg_append {s : Store T} {p c c' p' : Option Nat} {xs ys : List (Nat × T)} :
    Seg s p c c' p' (xs ++ ys) ↔
      ∃ cm pm, Seg s p c cm pm xs ∧ Seg s pm cm c' p' ys := by
  induction xs generalizing p c with
  | nil =>
    simp only [List.nil_append]
    constructor
    · exact fun h => ⟨c, p, ⟨rfl, rfl⟩, h⟩
    · rintro ⟨cm, pm, ⟨rfl, rfl⟩, h⟩
      exact h
  | cons q xs ih =>
    obtain ⟨a, v⟩ := q
    simp only [List.cons_append, seg_cons, ih]
    constructor
    · rintro ⟨rfl, nd, hs, hv, hp, cm, pm, h1, h2⟩
      exact ⟨cm, pm, ⟨rfl, nd, hs, hv, hp, h1⟩, h2⟩
    · rintro ⟨cm, pm, ⟨rfl, nd, hs, hv, hp, h1⟩, h2⟩
      exact ⟨rfl, nd, hs, hv, hp, cm, pm, h1, h2⟩

theorem seg_single {s : Store T} {p c c' p' : Option Nat} {a : Nat} {v : T} :
    Seg s p c c' p' [(a, v)] ↔
      c = some a ∧ ∃ nd, s a = some nd ∧ nd.value = v ∧ nd.previous = p ∧
        c' = nd.next ∧ p' = some a := by
  rw [seg_cons]
  constructor
  · rintro ⟨rfl, nd, hs, hv, hp, h1, h2⟩
    exact ⟨rfl, nd, hs, hv, hp, h1, h2⟩
  · rintro ⟨rfl, nd, hs, hv, hp, h1, h2⟩
    exact ⟨rfl, nd, hs, hv, hp, h1, h2⟩

theorem seg_congr {s s' : Store T} {p c c' p' : Option Nat} {nodes : List (Nat × T)}
    (hag : ∀ q ∈ nodes, s' q.1 = s q.1) (h : Seg s p c c' p' nodes) :
    Seg s' p c c' p' nodes := by
  induction nodes generalizing p c with
  | nil => exact h
  | cons q rest ih =>
    obtain ⟨a, v⟩ := q
    rw [seg_cons] at h ⊢
    obtain ⟨rfl, nd, hs, hv, hp, hseg⟩ := h
    refine ⟨rfl, nd, ?_, hv, hp, ih (fun q hq => hag q (List.mem_cons_of_mem _ hq)) hseg⟩
    rw [hag (a, v) (List.mem_cons_self _ _)]
    exact hs

theorem seg_last {s : Store T} {p c c' p' : Option Nat} {xs : List (Nat × T)}
    {a : Nat} {v : T} (h : Seg s p c c' p' (xs ++ [(a, v)])) : p' = some a := by
  rw [seg_append] at h
  obtain ⟨cm, pm, _, h2⟩ := h
  rw [seg_single] at h2
  exact h2.2.choose_spec.2.2.2.2

theorem seg_tail_of_last {s : Store T} {p c p' : Option Nat} {xs : List (Nat × T)}
    (h : Seg s p c none p' xs) (hne : xs ≠ []) : ∃ xs' a v, xs = xs' ++ [(a, v)] ∧
      p' = some a := by
  rcases List.eq_nil_or_concat xs with rfl | ⟨xs', q, hq⟩
  · exact absurd rfl hne
  · obtain ⟨a, v⟩ := q
    rw [List.concat_eq_append] at hq
    subst hq
    exact ⟨xs', a, v, rfl, seg_last h⟩

theorem seg_head_none {s : Store T} {p c c' p' : Option Nat}
    {nodes : List (Nat × T)} (h : Seg s p c c' p' nodes) (hc : c = none) :
    nodes = [] := by
  cases nodes with
  | nil => rfl
  | cons q rest =>
    obtain ⟨a, v⟩ := q
    rw [seg_cons] at h
    rw [hc] at h
    exact absurd h.1 (by simp)

theorem walkN_none (s : Store T) (k : Nat) : walkN s none k = none := by
  cases k <;> rfl

theorem walkN_succ_of_some {s : Store T} {a : Nat} {nd : Node T} (h : s a = some nd)
    (k : Nat) : walkN s (some a) (k + 1) = walkN s nd.next k := by
  rw [show walkN s (some a) (k + 1) = match s a with
    | none => none
    | some nd => walkN s nd.next k from rfl, h]

theorem chainCheck_succ_of_some {s : Store T} {a : Nat} {nd : Node T}
    (h : s a = some nd) (prev tl : Option Nat) (n : Nat) :
    chainCheck s prev (some a) tl (n + 1) =
      ((nd.previous == prev) && chainCheck s (some a) nd.next tl n) := by
  rw [show chainCheck s prev (some a) tl (n + 1) = match s a with
    | none => false
    | some nd => (nd.previous == prev) && chainCheck s (some a) nd.next tl n from rfl, h]

theorem seg_walk_get {s : Store T} {p c c' p' : Option Nat} {nodes : List (Nat × T)}
    (h : Seg s p c c' p' nodes) :
    ∀ i, i < nodes.length →
      ∃ a v nd, nodes.get? i = some (a, v) ∧ walkN s c i = some a ∧
        s a = some nd ∧ nd.value = v := by
  induction nodes generalizing p c with
  | nil => intro i hi; simp at hi
  | cons q rest ih =>
    obtain ⟨a, v⟩ := q
    rw [seg_cons] at h
    obtain ⟨rfl, nd, hs, hv, hp, hseg⟩ := h
    intro i hi
    cases i with
    | zero => exact ⟨a, v, nd, rfl, rfl, hs, hv⟩
    | succ i =>
      have hi' : i < rest.length := by simpa using hi
      obtain ⟨b, w, nb, h1, h2, h3, h4⟩ := ih hseg i hi'
      refine ⟨b, w, nb, by simpa using h1, ?_, h3, h4⟩
      rw [walkN_succ_of_some hs]
      exact h2

theorem seg_walk_out {s : Store T} {p c c' p' : Option Nat} {nodes : List (Nat × T)}
    (h : Seg s p c c' p' nodes) : walkN s c nodes.length = c' := by
  induction nodes generalizing p c with
  | nil => exact h.1.symm
  | cons q rest ih =>
    obtain ⟨a, v⟩ := q
    rw [seg_cons] at h
    obtain ⟨rfl, nd, hs, hv, hp, hseg⟩ := h
    show walkN s (some a) (rest.length + 1) = c'
    rw [walkN_succ_of_some hs]
    exact ih hseg

theorem seg_walk_ge {s : Store T} {p c p' : Option Nat} {nodes : List (Nat × T)}
    (h : Seg s p c none p' nodes) : ∀ k, nodes.length ≤ k → walkN s c k = none := by
  induction nodes generalizing p c with
  | nil =>
    intro k _
    rw [← h.1]
    exact walkN_none s k
  | cons q rest ih =>
    obtain ⟨a, v⟩ := q
    rw [seg_cons] at h
    obtain ⟨rfl, nd, hs, hv, hp, hseg⟩ := h
    intro k hk
    cases k with
    | zero => simp at hk
    | succ k =>
      show walkN s (some a) (k + 1) = none
      rw [walkN_succ_of_some hs]
      exact ih hseg k (by simpa using hk)

theorem seg_chainCheck {s : Store T} {p c p' : Option Nat} {nodes : List (Nat × T)}
    (h : Seg s p c none p' nodes) : chainCheck s p c p' nodes.length = true := by
  induction nodes generalizing p c with
  | nil =>
    obtain ⟨h1, h2⟩ := h
    show (c == none && p' == p) = true
    rw [← h1, h2]
    simp
  | cons q rest ih =>
    obtain ⟨a, v⟩ := q
    rw [seg_cons] at h
    obtain ⟨rfl, nd, hs, hv, hp, hseg⟩ := h
    show chainCheck s p (some a) p' (rest.length + 1) = true
    rw [chainCheck_succ_of_some hs, hp]
    simpa using ih hseg

theorem models_new : Models (new : DoublyLinkedList T) [] := by
  refine ⟨⟨rfl, rfl⟩, rfl, by simp, by simp, fun a _ => rfl⟩

theorem models_length {l : DoublyLinkedList T} {nodes : List (Nat × T)}
    (h : Models l nodes) : l.length = nodes.length := h.2.1

theorem structural_of_models {l : DoublyLinkedList T} {nodes : List (Nat × T)}
    (h : Models l nodes) : structuralInvariantHolds l = true := by
  have := seg_chainCheck h.1
  rw [structuralInvariantHolds, models_length h]
  exact this

theorem models_tail_none {l : DoublyLinkedList T} {nodes : List (Nat × T)}
    (h : Models l nodes) (htl : l.tail = none) : nodes = [] ∧ l.head = none := by
  obtain ⟨hseg, _, _, _, _⟩ := h
  have hnil : nodes = [] := by
    rcases List.eq_nil_or_concat nodes with rfl | ⟨xs, q, hq⟩
    · rfl
    · obtain ⟨a, v⟩ := q
      rw [List.concat_eq_append] at hq
      subst hq
      have := seg_last hseg
      rw [htl] at this
      exact absurd this (by simp)
  subst hnil
  exact ⟨rfl, hseg.1.symm⟩

theorem models_head_none {l : DoublyLinkedList T} {nodes : List (Nat × T)}
    (h : Models l nodes) (hhd : l.head = none) : nodes = [] ∧ l.tail = none := by
  obtain ⟨hseg, _, _, _, _⟩ := h
  have hnil : nodes = [] := seg_head_none hseg hhd
  subst hnil
  exact ⟨rfl, hseg.2⟩

/-- Introduction form of `Models` for a literal state, keeping subgoals free
of record projections. -/
theorem models_intro {len : Nat} {hd tl : Option Nat} {s : Store T} {fr : Nat}
    {nodes : List (Nat × T)}
    (h1 : Seg s none hd none tl nodes) (h2 : len = nodes.length)
    (h3 : (nodes.map Prod.fst).Nodup) (h4 : ∀ p ∈ nodes, p.1 < fr)
    (h5 : ∀ a, a ∉ nodes.map Prod.fst → s a = none) :
    Models ⟨len, hd, tl, s, fr⟩ nodes :=
  ⟨h1, h2, h3, h4, h5⟩

theorem nodup_snoc_fresh {nodes : List (Nat × T)} {fr : Nat}
    (hnd : (nodes.map Prod.fst).Nodup) (hfr : ∀ p ∈ nodes, p.1 < fr) (v : T) :
    ((nodes ++ [(fr, v)]).map Prod.fst).Nodup := by
  rw [List.map_append, List.nodup_append]
  refine ⟨hnd, by simp, ?_⟩
  intro x hx hx2
  simp at hx2
  subst hx2
  obtain ⟨q, hq, hqe⟩ := List.mem_map.1 hx
  exact absurd hqe (Nat.ne_of_lt (hfr q hq))

theorem models_push {l : DoublyLinkedList T} {nodes : List (Nat × T)}
    (h : Models l nodes) (v : T) :
    Models (l.push v) (nodes ++ [(l.fresh, v)]) := by
  obtain ⟨hseg, hlen, hnd, hfr, hdom⟩ := h
  match htl : l.tail with
  | none =>
    obtain ⟨hnil, hhd⟩ := models_tail_none ⟨hseg, hlen, hnd, hfr, hdom⟩ htl
    subst hnil
    simp only [DoublyLinkedList.push, htl, List.nil_append]
    refine models_intro ?_ ?_ ?_ ?_ ?_
    · exact seg_single.2 ⟨rfl, ⟨v, none, none⟩, store_set_same _ _ _, rfl, rfl, rfl, rfl⟩
    · simpa using hlen
    · simp
    · simp
    · intro b hb
      simp at hb
      rw [store_set_other _ hb]
      exact hdom b (by simp)
  | some t =>
    have hne : nodes ≠ [] := by
      intro hc
      subst hc
      rw [hseg.2] at htl
      simp at htl
    obtain ⟨xs, a, w, rfl, hta⟩ := seg_tail_of_last hseg hne
    rw [htl] at hta
    have hat : a = t := by injection hta.symm
    subst hat
    rw [seg_append] at hseg
    obtain ⟨cm, pm, hxs, hone⟩ := hseg
    rw [seg_single] at hone
    obtain ⟨hcm, nt, hsa, hval, hprev, hnext, _⟩ := hone
    have haf : a < l.fresh := hfr (a, w) (by simp)
    simp only [DoublyLinkedList.push, htl, hsa]
    have hnota : ∀ q ∈ xs, q.1 ≠ a := by
      intro q hq
      simp only [List.map_append, List.nodup_append] at hnd
      have := hnd.2.2 (List.mem_map_of_mem Prod.fst hq)
      simpa using this
    have hltf : ∀ q ∈ xs, q.1 < l.fresh := fun q hq => hfr q (by simp [hq])
    refine models_intro ?_ ?_ ?_ ?_ ?_
    · rw [List.append_assoc, seg_append]
      refine ⟨cm, pm, ?_, ?_⟩
      · refine seg_congr ?_ hxs
        intro q hq
        rw [store_set_other _ (Nat.ne_of_lt (hltf q hq)),
          store_set_other _ (hnota q hq)]
      · rw [seg_append]
        refine ⟨some l.fresh, some a, ?_, ?_⟩
        · refine seg_single.2 ⟨hcm, { nt with next := some l.fresh }, ?_, hval, hprev, rfl, rfl⟩
          rw [store_set_other _ (Nat.ne_of_lt haf), store_set_same]
        · exact seg_single.2 ⟨rfl, ⟨v, none, some a⟩, store_set_same _ _ _, rfl, rfl,
            rfl, rfl⟩
    · simpa using hlen
    · exact nodup_snoc_fresh hnd hfr v
    · intro q hq
      rcases List.mem_append.1 hq with hq | hq
      · exact Nat.lt_succ_of_lt (hfr q hq)
      · simp at hq
        subst hq
        exact Nat.lt_succ_self _
    · intro b hb
      simp only [List.map_append, List.mem_append] at hb
      push_neg at hb
      have hb1 : b ∉ (xs ++ [(a, w)]).map Prod.fst := by
        simpa using hb.1
      have hb2 : b ≠ l.fresh := by simpa using hb.2
      have hba : b ≠ a := by
        intro hc
        subst hc
        exact hb1 (by simp)
      rw [store_set_other _ hb2, store_set_other _ hba]
      exact hdom b hb1

theorem models_shift {l : DoublyLinkedList T} {nodes : List (Nat × T)}
    (h : Models l nodes) (v : T) :
    Models (l.shift v) ((l.fresh, v) :: nodes) := by
  obtain ⟨hseg, hlen, hnd, hfr, hdom⟩ := h
  match hhd : l.head with
  | none =>
    obtain ⟨hnil, htl⟩ := models_head_none ⟨hseg, hlen, hnd, hfr, hdom⟩ hhd
    subst hnil
    simp only [DoublyLinkedList.shift, hhd]
    refine models_intro ?_ ?_ ?_ ?_ ?_
    · exact seg_single.2 ⟨rfl, ⟨v, none, none⟩, store_set_same _ _ _, rfl, rfl, rfl, rfl⟩
    · simpa using hlen
    · simp
    · simp
    · intro b hb
      simp at hb
      rw [store_set_other _ hb]
      exact hdom b (by simp)
  | some hd =>
    match hnodes : nodes with
    | [] =>
      rw [hseg.1.symm] at hhd
      simp at hhd
    | (a, w) :: rest =>
      rw [seg_cons] at hseg
      obtain ⟨hca, nh, hsa, hval, hprev, hrest⟩ := hseg
      have hah : a = hd := by
        rw [hhd] at hca
        injection hca with h
        exact h.symm
      subst hah
      have haf : a < l.fresh := hfr (a, w) (by simp)
      simp only [DoublyLinkedList.shift, hhd, hsa]
      have hnota : ∀ q ∈ rest, q.1 ≠ a := by
        intro q hq
        simp only [List.map_cons, List.nodup_cons] at hnd
        intro hc
        exact hnd.1 (hc ▸ List.mem_map_of_mem _ hq)
      have hltf : ∀ q ∈ rest, q.1 < l.fresh := fun q hq => hfr q (by simp [hq])
      refine models_intro ?_ ?_ ?_ ?_ ?_
      · rw [show ((l.fresh, v) :: (a, w) :: rest : List (Nat × T))
            = [(l.fresh, v)] ++ ([(a, w)] ++ rest) from rfl, seg_append]
        refine ⟨some a, some l.fresh, ?_, ?_⟩
        · exact seg_single.2 ⟨rfl, ⟨v, some a, none⟩, store_set_same _ _ _, rfl, rfl,
            rfl, rfl⟩
        · rw [seg_append]
          refine ⟨nh.next, some a, ?_, ?_⟩
          · refine seg_single.2 ⟨rfl, { nh with previous := some l.fresh }, ?_, hval, rfl,
              rfl, rfl⟩
            rw [store_set_other _ (Nat.ne_of_lt haf), store_set_same]
          · refine seg_congr ?_ hrest
            intro q hq
            rw [store_set_other _ (Nat.ne_of_lt (hltf q hq)),
              store_set_other _ (hnota q hq)]
      · simpa using hlen
      · simp only [List.map_cons, List.nodup_cons] at hnd ⊢
        refine ⟨?_, hnd⟩
        intro hc
        rcases List.mem_cons.1 hc with hc | hc
        · exact absurd hc.symm (Nat.ne_of_lt haf)
        · obtain ⟨q, hq, hqe⟩ := List.mem_map.1 hc
          exact absurd hqe (Nat.ne_of_lt (hltf q hq))
      · intro q hq
        rcases List.mem_cons.1 hq with rfl | hq
        · exact Nat.lt_succ_self _
        · exact Nat.lt_succ_of_lt (hfr q (by simp [hq]))
      · intro b hb
        simp only [List.map_cons, List.mem_cons] at hb
        push_neg at hb
        rw [store_set_other _ hb.1, store_set_other _ hb.2.1]
        exact hdom b (by simpa using hb.2)

theorem models_unshift_nil {l : DoublyLinkedList T} (h : Models l []) :
    l.unshift = (none, l) := by
  have hhd : l.head = none := h.1.1.symm
  simp [DoublyLinkedList.unshift, hhd]

theorem models_unshift {l : DoublyLinkedList T} {a : Nat} {v : T}
    {rest : List (Nat × T)} (h : Models l ((a, v) :: rest)) :
    (l.unshift).1 = some v ∧ Models (l.unshift).2 rest := by
  obtain ⟨hseg, hlen, hnd, hfr, hdom⟩ := h
  rw [seg_cons] at hseg
  obtain ⟨hca, nh, hsa, hval, hprev, hrest⟩ := hseg
  simp only [List.map_cons, List.nodup_cons] at hnd
  have hanotin : a ∉ rest.map Prod.fst := hnd.1
  match hnext : nh.next with
  | none =>
    have hrnil : rest = [] := seg_head_none hrest (by rw [hnext])
    subst hrnil
    rw [hnext] at hrest
    simp only [DoublyLinkedList.unshift, hca, hsa, hnext]
    refine ⟨by rw [hval], models_intro ?_ ?_ ?_ ?_ ?_⟩
    · exact ⟨rfl, rfl⟩
    · simp only [List.length_cons, List.length_nil] at hlen ⊢
      omega
    · simp
    · simp
    · intro b _
      by_cases hba : b = a
      · subst hba
        exact store_set_same _ _ _
      · rw [store_set_other _ hba]
        exact hdom b (by simp [hba])
  | some nb =>
    match rest, hrest with
    | [], hrest =>
      rw [hnext] at hrest
      exact absurd hrest.1 (by simp)
    | (b0, w0) :: rest2, hrest =>
      rw [hnext, seg_cons] at hrest
      obtain ⟨hcb, nn, hsb, hvb, hpb, hrest2⟩ := hrest
      have hb0nb : nb = b0 := by
        injection hcb with h
      subst hb0nb
      have hnba : nb ≠ a := by
        intro hc
        exact hanotin (hc ▸ List.mem_map_of_mem Prod.fst (List.mem_cons_self _ _))
      have hs1b : (l.store.set a none) nb = some nn := by
        rw [store_set_other _ hnba]
        exact hsb
      simp only [DoublyLinkedList.unshift, hca, hsa, hnext, hs1b]
      simp only [List.map_cons, List.nodup_cons] at hnd
      refine ⟨by rw [hval], models_intro ?_ ?_ ?_ ?_ ?_⟩
      · rw [seg_cons]
        refine ⟨rfl, { nn with previous := none }, store_set_same _ _ _, hvb, rfl, ?_⟩
        refine seg_congr ?_ hrest2
        intro q hq
        have hqnb : q.1 ≠ nb := by
          intro hc
          exact hnd.2.1 (hc ▸ List.mem_map_of_mem Prod.fst hq)
        have hqa : q.1 ≠ a := by
          intro hc
          exact hanotin (hc ▸ List.mem_map_of_mem Prod.fst (List.mem_cons_of_mem _ hq))
        rw [store_set_other _ hqnb, store_set_other _ hqa]
      · simp only [List.length_cons] at hlen ⊢
        omega
      · simp only [List.map_cons, List.nodup_cons]
        exact hnd.2
      · intro q hq
        exact hfr q (List.mem_cons_of_mem _ hq)
      · intro b hb
        have hbnb : b ≠ nb := by
          intro hc
          subst hc
          exact hb (by simp)
        have hbrest : b ∉ rest2.map Prod.fst := by
          intro hc
          exact hb (by simp [hc])
        rw [store_set_other _ hbnb]
        by_cases hba : b = a
        · subst hba
          exact store_set_same _ _ _
        · rw [store_set_other _ hba]
          refine hdom b ?_
          simp only [List.map_cons, List.mem_cons]
          push_neg
          exact ⟨hba, fun hc => absurd hc hbnb, by simpa using hbrest⟩

theorem models_pop_nil {l : DoublyLinkedList T} (h : Models l []) :
    l.pop = (none, l) := by
  have htl : l.tail = none := h.1.2
  simp [DoublyLinkedList.pop, htl]

theorem models_pop {l : DoublyLinkedList T} {xs : List (Nat × T)} {a : Nat} {v : T}
    (h : Models l (xs ++ [(a, v)])) :
    (l.pop).1 = some v ∧ Models (l.pop).2 xs := by
  obtain ⟨hseg, hlen, hnd, hfr, hdom⟩ := h
  have htl : l.tail = some a := seg_last hseg
  rw [seg_append] at hseg
  obtain ⟨cm, pm, hxs, hone⟩ := hseg
  rw [seg_single] at hone
  obtain ⟨hcm, nt, hsa, hval, hprev, hnext, _⟩ := hone
  have hndsplit := hnd
  rw [List.map_append, List.nodup_append] at hndsplit
  have hanotin : a ∉ xs.map Prod.fst := by
    intro hc
    exact hndsplit.2.2 hc (by simp)
  match hpm : nt.previous with
  | none =>
    have hpmnone : pm = none := by rw [← hprev, hpm]
    subst hpmnone
    have hxsnil : xs = [] := by
      rcases List.eq_nil_or_concat xs with rfl | ⟨ys, q, hq⟩
      · rfl
      · obtain ⟨b, w⟩ := q
        rw [List.concat_eq_append] at hq
        subst hq
        exact absurd (seg_last hxs) (by simp)
    subst hxsnil
    simp only [DoublyLinkedList.pop, htl, hsa, hpm]
    refine ⟨by rw [hval], models_intro ?_ ?_ ?_ ?_ ?_⟩
    · exact ⟨rfl, rfl⟩
    · simp only [List.nil_append, List.length_cons, List.length_nil] at hlen ⊢
      omega
    · simp
    · simp
    · intro b _
      by_cases hba : b = a
      · subst hba
        exact store_set_same _ _ _
      · rw [store_set_other _ hba]
        exact hdom b (by simp [hba])
  | some p =>
    have hpmp : pm = some p := by rw [← hprev, hpm]
    subst hpmp
    rcases List.eq_nil_or_concat xs with rfl | ⟨ys, q, hq⟩
    · exact absurd hxs.2 (by simp)
    · obtain ⟨p', w⟩ := q
      rw [List.concat_eq_append] at hq
      subst hq
      have hp'p : p' = p := by
        have hseglast := seg_last hxs
        injection hseglast with hh
        exact hh.symm
      subst hp'p
      have hndxs : ((ys ++ [(p', w)]).map Prod.fst).Nodup := hndsplit.1
      have hndys := hndxs
      rw [List.map_append, List.nodup_append] at hndys
      rw [seg_append] at hxs
      obtain ⟨cm2, pm2, hys, hpone⟩ := hxs
      rw [seg_single] at hpone
      obtain ⟨hcm2, np, hsp, hvp, hpp, hnp, _⟩ := hpone
      have hp'mem : p' ∈ (ys ++ [(p', w)]).map Prod.fst := by simp
      have hpa : p' ≠ a := fun hc => hanotin (hc ▸ hp'mem)
      have hs1p : (l.store.set a none) p' = some np := by
        rw [store_set_other _ hpa]
        exact hsp
      simp only [DoublyLinkedList.pop, htl, hsa, hpm, hs1p]
      refine ⟨by rw [hval], models_intro ?_ ?_ ?_ ?_ ?_⟩
      · rw [seg_append]
        refine ⟨cm2, pm2, ?_, ?_⟩
        · refine seg_congr ?_ hys
          intro q hq
          have hqp : q.1 ≠ p' := by
            intro hc
            exact hndys.2.2 (List.mem_map_of_mem Prod.fst hq) (by simp [hc])
          have hqa : q.1 ≠ a := by
            intro hc
            exact hanotin (hc ▸ List.mem_map_of_mem Prod.fst
              (List.mem_append.2 (Or.inl hq)))
          rw [store_set_other _ hqp, store_set_other _ hqa]
        · rw [seg_single]
          exact ⟨hcm2, { np with next := none }, store_set_same _ _ _, hvp, hpp, rfl, rfl⟩
      · simp only [List.length_append, List.length_cons, List.length_nil] at hlen ⊢
        omega
      · exact hndxs
      · intro q hq
        exact hfr q (List.mem_append.2 (Or.inl hq))
      · intro b hb
        have hbp : b ≠ p' := fun hc => hb (hc ▸ hp'mem)
        rw [store_set_other _ hbp]
        by_cases hba : b = a
        · subst hba
          exact store_set_same _ _ _
        · rw [store_set_other _ hba]
          refine hdom b ?_
          intro hc
          rw [List.map_append] at hc
          rcases List.mem_append.1 hc with hc | hc
          · exact hb hc
          · simp at hc
            exact hba hc

theorem removeWalk_out {l : DoublyLinkedList T} {nodes : List (Nat × T)}
    (h : Models l nodes) {i : Nat} (hi : nodes.length ≤ i) :
    l.removeWalk i = (none, l) := by
  have hw : walkN l.store l.head i = none := seg_walk_ge h.1 i hi
  simp [DoublyLinkedList.removeWalk, hw]

theorem models_removeWalk_mid {l : DoublyLinkedList T} {xs' ys' : List (Nat × T)}
    {p a b : Nat} {w v u : T}
    (h : Models l ((xs' ++ [(p, w)]) ++ (a, v) :: (b, u) :: ys')) :
    (l.removeWalk (xs' ++ [(p, w)]).length).1 = some v ∧
      Models (l.removeWalk (xs' ++ [(p, w)]).length).2
        ((xs' ++ [(p, w)]) ++ (b, u) :: ys') := by
  obtain ⟨hseg, hlen, hnd, hfr, hdom⟩ := h
  rw [List.map_append, List.nodup_append] at hnd
  obtain ⟨hndXS, hndR, hdisj⟩ := hnd
  simp only [List.map_cons, List.nodup_cons, List.mem_cons] at hndR
  push_neg at hndR
  obtain ⟨⟨hab, haYs⟩, hbYs, hndYs⟩ := hndR
  have hpXS : p ∈ (xs' ++ [(p, w)]).map Prod.fst := by simp
  have hpa : p ≠ a := by
    intro hc
    have := hdisj hpXS
    simp [hc] at this
  have hpb : p ≠ b := by
    intro hc
    have := hdisj hpXS
    simp [hc] at this
  have hpNotYs : p ∉ ys'.map Prod.fst := by
    intro hc
    refine hdisj hpXS ?_
    rw [List.map_cons, List.map_cons]
    exact List.mem_cons_of_mem _ (List.mem_cons_of_mem _ hc)
  have hxsNot : ∀ q ∈ xs', q.1 ≠ a ∧ q.1 ≠ b ∧ q.1 ∉ ys'.map Prod.fst := by
    intro q hq
    have hmem := hdisj (List.mem_map_of_mem Prod.fst (List.mem_append.2 (Or.inl hq)))
    rw [List.map_cons, List.map_cons] at hmem
    refine ⟨?_, ?_, ?_⟩
    · intro hc
      exact hmem (hc ▸ List.mem_cons_self _ _)
    · intro hc
      exact hmem (List.mem_cons_of_mem _ (hc ▸ List.mem_cons_self _ _))
    · intro hc
      exact hmem (List.mem_cons_of_mem _ (List.mem_cons_of_mem _ hc))
  have hpNotXs : p ∉ xs'.map Prod.fst := by
    rw [List.map_append, List.nodup_append] at hndXS
    intro hc
    exact hndXS.2.2 hc (by simp)
  -- decompose the segment
  rw [seg_append] at hseg
  obtain ⟨cm, pm, hXS, hR⟩ := hseg
  rw [seg_cons] at hR
  obtain ⟨hcma, nd, hsa, hvala, hpreva, hRrest⟩ := hR
  rw [seg_cons] at hRrest
  obtain ⟨hcnb, nb, hsb, hvalb, hprevb, hYs⟩ := hRrest
  have hpmP : pm = some p := seg_last hXS
  -- the inner decomposition of the left part
  rw [seg_append] at hXS
  obtain ⟨cm2, pm2, hXs', hPone⟩ := hXS
  rw [seg_single] at hPone
  obtain ⟨hcm2, np, hsp, hvp, hpp, hnp, hpmp2⟩ := hPone
  -- the walk lands on `a`
  have hwalk : walkN l.store l.head (xs' ++ [(p, w)]).length = some a := by
    have := seg_walk_out (by rw [seg_append]; exact ⟨cm2, pm2, hXs', seg_single.2
      ⟨hcm2, np, hsp, hvp, hpp, hnp, hpmp2⟩⟩ : Seg l.store none l.head cm pm (xs' ++ [(p, w)]))
    rw [this, hcma]
  have hprevP : nd.previous = some p := by rw [hpreva, hpmP]
  have hnextB : nd.next = some b := hcnb
  have hs1p : (l.store.set a none) p = some np := by
    rw [store_set_other _ hpa]
    exact hsp
  have hs2b : (((l.store.set a none).set p (some { np with next := some b }))) b
      = some nb := by
    rw [store_set_other _ (Ne.symm hpb), store_set_other _ (Ne.symm hab)]
    exact hsb
  simp only [DoublyLinkedList.removeWalk, hwalk, hsa, hprevP, hnextB, hs1p, hs2b]
  refine ⟨by rw [hvala], models_intro ?_ ?_ ?_ ?_ ?_⟩
  · rw [seg_append]
    refine ⟨some b, some p, ?_, ?_⟩
    · rw [seg_append]
      refine ⟨cm2, pm2, ?_, ?_⟩
      · refine seg_congr ?_ hXs'
        intro q hq
        obtain ⟨hqa, hqb, _⟩ := hxsNot q hq
        have hqp : q.1 ≠ p := fun hc => hpNotXs (hc ▸ List.mem_map_of_mem Prod.fst hq)
        rw [store_set_other _ hqb, store_set_other _ hqp, store_set_other _ hqa]
      · rw [seg_single]
        refine ⟨hcm2, { np with next := some b }, ?_, hvp, hpp, rfl, rfl⟩
        rw [store_set_other _ hpb, store_set_same]
    · rw [seg_cons]
      refine ⟨rfl, { nb with previous := some p }, store_set_same _ _ _, hvalb, rfl, ?_⟩
      refine seg_congr ?_ hYs
      intro q hq
      have hqb : q.1 ≠ b := fun hc => hbYs (hc ▸ List.mem_map_of_mem Prod.fst hq)
      have hqp : q.1 ≠ p := fun hc => hpNotYs (hc ▸ List.mem_map_of_mem Prod.fst hq)
      have hqa : q.1 ≠ a := fun hc => haYs (hc ▸ List.mem_map_of_mem Prod.fst hq)
      rw [store_set_other _ hqb, store_set_other _ hqp, store_set_other _ hqa]
  · simp only [List.length_append, List.length_cons] at hlen ⊢
    omega
  · rw [List.map_append, List.nodup_append]
    refine ⟨hndXS, ?_, ?_⟩
    · simp only [List.map_cons, List.nodup_cons]
      exact ⟨by simpa using hbYs, hndYs⟩
    · intro x hx hx2
      simp only [List.map_cons, List.mem_cons] at hx2
      rcases List.mem_map.1 hx with ⟨q, hq, rfl⟩
      rcases List.mem_append.1 hq with hq | hq
      · rcases hx2 with hc | hc
        · exact (hxsNot q hq).2.1 hc
        · exact (hxsNot q hq).2.2 (by simpa using hc)
      · simp only [List.mem_singleton] at hq
        subst hq
        rcases hx2 with hc | hc
        · exact hpb hc
        · exact hpNotYs (by simpa using hc)
  · intro q hq
    refine hfr q ?_
    rcases List.mem_append.1 hq with hq | hq
    · exact List.mem_append.2 (Or.inl hq)
    · rcases List.mem_cons.1 hq with rfl | hq
      · exact List.mem_append.2 (Or.inr (by simp))
      · exact List.mem_append.2 (Or.inr (by simp [hq]))
  · intro c hc
    have hcp : c ≠ p := by
      intro hcc
      refine hc ?_
      rw [hcc]
      exact List.mem_map_of_mem Prod.fst
        (List.mem_append.2 (Or.inl (List.mem_append.2 (Or.inr (List.mem_cons_self _ _)))))
    have hcb : c ≠ b := by
      intro hcc
      refine hc ?_
      rw [hcc]
      exact List.mem_map_of_mem Prod.fst (List.mem_append.2 (Or.inr (List.mem_cons_self _ _)))
    by_cases hca : c = a
    · subst hca
      rw [store_set_other _ hab, store_set_other _ (Ne.symm hpa), store_set_same]
    · rw [store_set_other _ hcb, store_set_other _ hcp, store_set_other _ hca]
      refine hdom c ?_
      intro hmem
      rw [List.map_append, List.map_cons] at hmem
      rcases List.mem_append.1 hmem with hm | hm
      · exact hc (by rw [List.map_append]; exact List.mem_append.2 (Or.inl hm))
      · rcases List.mem_cons.1 hm with hm | hm
        · exact hca hm
        · exact hc (by rw [List.map_append]; exact List.mem_append.2 (Or.inr hm))

theorem eraseIdx_append_len {α : Type} (P : List α) (x : α) (rest : List α) :
    (P ++ x :: rest).eraseIdx P.length = P ++ rest := by
  induction P with
  | nil => rfl
  | cons p P ih => simpa using ih

theorem usizeSub1_lt_self {n : Nat} (h : 1 ≤ n) : usizeSub1 n < n := by
  unfold usizeSub1 usizeBits
  rcases le_or_lt n (2 ^ 64) with hle | hgt
  · have : (n + (2 ^ 64 - 1)) % 2 ^ 64 = n - 1 := by
      have he : n + (2 ^ 64 - 1) = (n - 1) + 1 * 2 ^ 64 := by omega
      rw [he, Nat.add_mul_mod_self_right]
      exact Nat.mod_eq_of_lt (by omega)
    omega
  · exact lt_of_lt_of_le (Nat.mod_lt _ (by norm_num)) (le_of_lt hgt)

theorem remove_zero (l : DoublyLinkedList T) : l.remove 0 = some l.unshift := by
  simp [DoublyLinkedList.remove]

theorem models_remove_lt {l : DoublyLinkedList T} {nodes : List (Nat × T)}
    (h : Models l nodes) {i : Nat} (hi : i < nodes.length) :
    ∃ l2 a v, nodes[i]? = some (a, v) ∧ l.remove i = some (some v, l2) ∧
      Models l2 (nodes.eraseIdx i) := by
  have hlen := models_length h
  match hi0 : i with
  | 0 =>
    match nodes, h, hi with
    | [], _, hi => exact absurd hi (by simp)
    | (a, v) :: rest, h, _ =>
      obtain ⟨h1, h2⟩ := models_unshift h
      refine ⟨(l.unshift).2, a, v, by simp, ?_, h2⟩
      rw [remove_zero]
      congr 1
      rw [← h1]
  | i' + 1 =>
    have hne0 : i' + 1 ≠ 0 := by omega
    have hcp : checkedPred l.length = some (l.length - 1) := by
      rw [checkedPred, if_neg (by omega)]
    by_cases hlast : i' + 1 = nodes.length - 1
    · -- the pop branch
      rcases List.eq_nil_or_concat nodes with rfl | ⟨xs, q, hq⟩
      · simp at hi
      · obtain ⟨a, v⟩ := q
        rw [List.concat_eq_append] at hq
        subst hq
        obtain ⟨h1, h2⟩ := models_pop h
        have hxl : i' + 1 = xs.length := by
          simp only [List.length_append, List.length_cons, List.length_nil] at hlast
          omega
        refine ⟨(l.pop).2, a, v, ?_, ?_, ?_⟩
        · rw [hxl]
          exact getElem?_append_len xs (a, v) []
        · simp only [List.length_append, List.length_cons, List.length_nil] at hlen
          simp only [DoublyLinkedList.remove, if_neg hne0, hcp]
          rw [if_pos (show i' + 1 = l.length - 1 by omega)]
          congr 1
          rw [← h1]
        · rw [hxl, eraseIdx_append_len]
          simpa using h2
    · -- the interior walk branch
      have hmid : i' + 1 < nodes.length - 1 := by omega
      have hilt : i' + 1 < nodes.length := hi
      have hlt2 : i' + 2 < nodes.length := by omega
      have hdec1 : nodes.drop (i' + 1) = nodes[i' + 1] :: nodes.drop (i' + 2) :=
        List.drop_eq_getElem_cons hilt
      have hdec2 : nodes.drop (i' + 2) = nodes[i' + 2] :: nodes.drop (i' + 3) :=
        List.drop_eq_getElem_cons hlt2
      have hdecomp : nodes = nodes.take (i' + 1) ++ nodes[i' + 1] ::
          nodes[i' + 2] :: nodes.drop (i' + 3) := by
        conv_lhs => rw [← List.take_append_drop (i' + 1) nodes]
        rw [hdec1, hdec2]
      have hXSlen : (nodes.take (i' + 1)).length = i' + 1 :=
        List.length_take_of_le (le_of_lt hilt)
      rcases List.eq_nil_or_concat (nodes.take (i' + 1)) with hc | ⟨xs', q, hq⟩
      · rw [hc] at hXSlen
        simp at hXSlen
      obtain ⟨p, w⟩ := q
      rw [List.concat_eq_append] at hq
      rcases hav : nodes[i' + 1] with ⟨a, v⟩
      rcases hbu : nodes[i' + 2] with ⟨b, u⟩
      rw [hav, hbu, hq] at hdecomp
      have h2 := h
      rw [hdecomp] at h2
      obtain ⟨hr1, hr2⟩ := models_removeWalk_mid h2
      have hWklen : (xs' ++ [(p, w)]).length = i' + 1 := by
        rw [← hq]
        exact hXSlen
      rw [hWklen] at hr1 hr2
      refine ⟨(l.removeWalk (i' + 1)).2, a, v, ?_, ?_, ?_⟩
      · rw [List.getElem?_eq_getElem hilt, hav]
      · simp only [DoublyLinkedList.remove, if_neg hne0, hcp]
        rw [if_neg (show ¬ i' + 1 = l.length - 1 by omega)]
        congr 1
        rw [← hr1]
      · rw [hdecomp]
        have herase := eraseIdx_append_len (xs' ++ [(p, w)]) (a, v)
          ((b, u) :: nodes.drop (i' + 3))
        rw [hWklen] at herase
        rw [herase]
        exact hr2
theorem models_remove_ge {l : DoublyLinkedList T} {nodes : List (Nat × T)}
    (h : Models l nodes) {i : Nat} (hi : nodes.length ≤ i) :
    (l.remove i = if l.length = 0 ∧ 1 ≤ i then none else some (none, l)) ∧
      l.removeWrap i = (none, l) := by
  have hlen := models_length h
  match hi0 : i with
  | 0 =>
    have hnil : nodes = [] := List.eq_nil_of_length_eq_zero (Nat.le_zero.1 hi)
    subst hnil
    rw [remove_zero, models_unshift_nil h]
    constructor
    · rw [if_neg (by omega)]
    · rw [DoublyLinkedList.removeWrap, if_pos rfl, models_unshift_nil h]
  | i' + 1 =>
    by_cases h0 : l.length = 0
    · have hnil : nodes = [] := by
        rw [h0] at hlen
        exact (List.eq_nil_of_length_eq_zero hlen.symm)
      subst hnil
      constructor
      · rw [if_pos ⟨h0, by omega⟩, DoublyLinkedList.remove, if_neg (by omega),
          checkedPred, if_pos h0]
      · rw [DoublyLinkedList.removeWrap, if_neg (by omega)]
        by_cases hmax : i' + 1 = usizeSub1 l.length
        · rw [if_pos hmax]
          exact models_pop_nil h
        · rw [if_neg hmax]
          exact removeWalk_out h hi
    · have hcp : checkedPred l.length = some (l.length - 1) := by
        rw [checkedPred, if_neg h0]
      constructor
      · rw [if_neg (by omega)]
        simp only [DoublyLinkedList.remove, if_neg (show ¬ i' + 1 = 0 by omega), hcp]
        rw [if_neg (show ¬ i' + 1 = l.length - 1 by omega)]
        rw [removeWalk_out h hi]
      · rw [DoublyLinkedList.removeWrap, if_neg (by omega)]
        have hw : usizeSub1 l.length < l.length := usizeSub1_lt_self (by omega)
        rw [if_neg (show ¬ i' + 1 = usizeSub1 l.length by omega)]
        exact removeWalk_out h hi

theorem applyOp_preserves {l l2 : DoublyLinkedList T} {op : Op T}
    (hm : ∃ nodes, Models l nodes) (h : applyOp l op = some l2) :
    ∃ nodes2, Models l2 nodes2 := by
  obtain ⟨nodes, hm⟩ := hm
  match op with
  | .push v =>
    have hl2 : l2 = l.push v := by
      simpa [applyOp] using h.symm
    exact ⟨nodes ++ [(l.fresh, v)], hl2 ▸ models_push hm v⟩
  | .shift v =>
    have hl2 : l2 = l.shift v := by
      simpa [applyOp] using h.symm
    exact ⟨(l.fresh, v) :: nodes, hl2 ▸ models_shift hm v⟩
  | .pop =>
    have hl2 : l2 = (l.pop).2 := by
      simpa [applyOp] using h.symm
    rcases List.eq_nil_or_concat nodes with rfl | ⟨xs, q, hq⟩
    · rw [hl2, models_pop_nil hm]
      exact ⟨[], hm⟩
    · obtain ⟨a, v⟩ := q
      rw [List.concat_eq_append] at hq
      subst hq
      exact ⟨xs, hl2 ▸ (models_pop hm).2⟩
  | .unshift =>
    have hl2 : l2 = (l.unshift).2 := by
      simpa [applyOp] using h.symm
    match nodes, hm with
    | [], hm =>
      rw [hl2, models_unshift_nil hm]
      exact ⟨[], hm⟩
    | (a, v) :: rest, hm =>
      exact ⟨rest, hl2 ▸ (models_unshift hm).2⟩
  | .remove i =>
    rcases lt_or_le i nodes.length with hi | hi
    · obtain ⟨l3, a, v, _, hrem, hmod⟩ := models_remove_lt hm hi
      rw [applyOp, hrem] at h
      simp at h
      exact ⟨nodes.eraseIdx i, h ▸ hmod⟩
    · obtain ⟨hrem, _⟩ := models_remove_ge hm hi
      rw [applyOp, hrem] at h
      by_cases hc : l.length = 0 ∧ 1 ≤ i
      · rw [if_pos hc] at h
        simp at h
      · rw [if_neg hc] at h
        simp at h
        exact ⟨nodes, h ▸ hm⟩

theorem applyOps_preserves {l : DoublyLinkedList T} {ops : List (Op T)}
    (hm : ∃ nodes, Models l nodes) :
    ∀ {l2 : DoublyLinkedList T}, applyOps l ops = some l2 → ∃ nodes2, Models l2 nodes2 := by
  induction ops generalizing l with
  | nil =>
    intro l2 h
    simp only [applyOps, Option.some.injEq] at h
    exact h ▸ hm
  | cons op ops ih =>
    intro l2 h
    rw [applyOps] at h
    match hop : applyOp l op with
    | none => rw [hop] at h; exact absurd h (by simp)
    | some l3 =>
      rw [hop] at h
      exact ih (applyOp_preserves hm hop) h

theorem models_foldl_push (vs : List T) :
    ∀ (l : DoublyLinkedList T) (nodes : List (Nat × T)), Models l nodes →
      ∃ nodes2, Models (vs.foldl DoublyLinkedList.push l) nodes2 ∧
        nodes2.map Prod.snd = nodes.map Prod.snd ++ vs := by
  induction vs with
  | nil => exact fun l nodes hm => ⟨nodes, hm, by simp⟩
  | cons v vs ih =>
    intro l nodes hm
    obtain ⟨nodes2, hm2, hv2⟩ := ih (l.push v) (nodes ++ [(l.fresh, v)]) (models_push hm v)
    refine ⟨nodes2, hm2, ?_⟩
    rw [hv2]
    simp

theorem popAll_models :
    ∀ (nodes : List (Nat × T)) (l : DoublyLinkedList T), Models l nodes →
      popAll nodes.length l = (nodes.map Prod.snd).reverse := by
  intro nodes
  induction nodes using List.reverseRecOn with
  | nil =>
    intro l _
    rfl
  | append_singleton xs q ih =>
    intro l hm
    obtain ⟨a, v⟩ := q
    obtain ⟨h1, h2⟩ := models_pop hm
    have hpop : l.pop = (some v, (l.pop).2) := by
      rw [← h1]
    have hlen : (xs ++ [(a, v)]).length = xs.length + 1 := by simp
    rw [hlen, popAll, hpop]
    show v :: popAll xs.length l.pop.2 = (List.map Prod.snd (xs ++ [(a, v)])).reverse
    rw [ih _ h2]
    simp

end dll

/-- Helper chain of concrete states used by the witnesses below: the list
built from `[1, 2, 3, 4]` is modelled by addresses `0..3` paired with the
pushed values. -/
theorem dll_models_example :
    dll.Models (dll.fromVec ([1, 2, 3, 4] : List ℕ)) [(0, 1), (1, 2), (2, 3), (3, 4)] := by
  have h0 : dll.Models (dll.new : dll.DoublyLinkedList ℕ) [] := dll.models_new
  have h1 := dll.models_push h0 1
  have h2 := dll.models_push h1 2
  have h3 := dll.models_push h2 3
  have h4 := dll.models_push h3 4
  simpa [dll.fromVec, dll.new] using h4



theorem map_eraseIdx_comm {α β : Type} (f : α → β) :
    ∀ (l : List α) (i : Nat), (l.eraseIdx i).map f = (l.map f).eraseIdx i
  | [], _ => by simp
  | _ :: _, 0 => by simp [List.eraseIdx]
  | x :: l, i + 1 => by simp [List.eraseIdx, map_eraseIdx_comm f l i]

/-- Counterexample to C2 as stated: `remove(1)` on the empty list evaluates
`self.len() - 1` with `len() = 0`; under the overflow-checked (debug, the
`cargo test` default) profile this underflow is a panic, recorded as `none` —
so `remove` on an empty list with a non-zero index can fault. -/
theorem dll_remove_empty_index_one_panics :
    (dll.new : dll.DoublyLinkedList ℕ).remove 1 = none := rfl

/-- C2 (amended): `remove` on an empty list or with an out-of-range index
returns nothing and leaves the list (hence its length) unchanged — except
that on an empty list with index ≥ 1 the bound computation `self.len() - 1`
underflows: under release (wrapping) semantics the call still returns nothing
with the list unchanged, but under debug (checked) semantics it panics
instead of returning. -/
theorem dll_remove_out_of_range {T : Type} (l : dll.DoublyLinkedList T)
    (nodes : List (Nat × T)) (i : Nat) (h : dll.Models l nodes)
    (hi : nodes.length ≤ i) :
    l.removeWrap i = (none, l) ∧
    (l.remove i = if l.length = 0 ∧ 1 ≤ i then none else some (none, l)) ∧
    (l.removeWrap i).2.length = l.length := by
  obtain ⟨h2, h1⟩ := dll.models_remove_ge h hi
  exact ⟨h1, h2, by rw [h1]⟩

/-- Witness for C2's amended theorem at a concrete input: the list built
from `[1, 2, 3, 4]` with index `7`. -/
theorem dll_remove_out_of_range_witness :
    ([(0, 1), (1, 2), (2, 3), (3, 4)] : List (Nat × ℕ)).length ≤ 7 ∧
    (dll.fromVec ([1, 2, 3, 4] : List ℕ)).removeWrap 7 =
      (none, dll.fromVec ([1, 2, 3, 4] : List ℕ)) :=
  ⟨by decide,
    (dll_remove_out_of_range (dll.fromVec [1, 2, 3, 4]) [(0, 1), (1, 2), (2, 3), (3, 4)] 7
      dll_models_example (by decide)).1⟩

/-- C3: `get i` returns a copy of the `i`-th value for `0 ≤ i < n` and
nothing for `i ≥ n`; in particular `i = n` passes the implementation's bound
check (which tests `index > length`, so `¬ n > length`) yet still returns
nothing because the walk from the head runs off the end (`walkN` is `none`
after `length` steps). -/
theorem dll_get_spec {T : Type} (l : dll.DoublyLinkedList T)
    (nodes : List (Nat × T)) (h : dll.Models l nodes) :
    (∀ i, i < nodes.length → l.get i = (nodes.map Prod.snd)[i]?) ∧
    (∀ i, nodes.length ≤ i → l.get i = none) ∧
    ¬ l.length > l.length ∧
    dll.walkN l.store l.head l.length = none ∧
    l.get l.length = none := by
  have hlen := dll.models_length h
  have hwalklen : dll.walkN l.store l.head l.length = none := by
    rw [hlen]
    exact dll.seg_walk_ge h.1 nodes.length le_rfl
  have hout : ∀ i, nodes.length ≤ i → l.get i = none := by
    intro i hi
    by_cases hgt : i > l.length
    · rw [dll.DoublyLinkedList.get, if_pos hgt]
    · have hw : dll.walkN l.store l.head i = none := dll.seg_walk_ge h.1 i hi
      rw [dll.DoublyLinkedList.get, if_neg hgt, hw]
  refine ⟨?_, hout, by omega, hwalklen, hout l.length (by omega)⟩
  intro i hi
  obtain ⟨a, v, nd, hget, hwalk, hsa, hval⟩ := dll.seg_walk_get h.1 i hi
  have hgt : ¬ i > l.length := by omega
  have hv : l.get i = some nd.value := by
    rw [dll.DoublyLinkedList.get, if_neg hgt, hwalk]
    show (match l.store a with
      | none => none
      | some nd => some nd.value) = some nd.value
    rw [hsa]
  rw [hv, hval, List.getElem?_map, ← List.get?_eq_getElem?, hget]
  rfl

/-- Witness for C3 at the list built from `[1, 2, 3, 4]`: `get 2` copies the
third value, `get 9` and `get 4` (the index equal to the length) return
nothing. -/
theorem dll_get_spec_witness :
    (dll.fromVec ([1, 2, 3, 4] : List ℕ)).get 2 = some 3 ∧
    (dll.fromVec ([1, 2, 3, 4] : List ℕ)).get 9 = none ∧
    (dll.fromVec ([1, 2, 3, 4] : List ℕ)).get 4 = none := by
  obtain ⟨hin, hout, _, _, hatlen⟩ :=
    dll_get_spec (dll.fromVec ([1, 2, 3, 4] : List ℕ)) [(0, 1), (1, 2), (2, 3), (3, 4)]
      dll_models_example
  exact ⟨by rw [hin 2 (by decide)]; decide, by rw [hout 9 (by decide)], hatlen⟩

/-- C4: after every finite sequence of push/pop/shift/unshift/remove
operations starting from the empty list (every sequence on which no
operation panics — `Option.all` holds vacuously for a panicking run, and
only `remove`'s underflow can panic), the structural invariant holds: the
head node's `previous` is empty, the tail node's `next` is empty, walking
from head via `next` reaches the tail in exactly `length` steps (length
equals the number of reachable nodes) and adjacent nodes point at each
other. -/
theorem dll_structural_invariant {T : Type} (ops : List (dll.Op T)) :
    (dll.applyOps dll.new ops).all dll.structuralInvariantHolds = true := by
  match h : dll.applyOps dll.new ops with
  | none => rfl
  | some l2 =>
    obtain ⟨nodes2, hm⟩ := dll.applyOps_preserves ⟨[], dll.models_new⟩ h
    simp [Option.all, dll.structural_of_models hm]

/-- C5: `remove` at a valid index returns the value at that position,
decrements the length by exactly one, and preserves the relative order of
the remaining values (the model list of the result is `eraseIdx` of the
original); concretely on the list built from `[1, 2, 3, 4]`, `remove 2`
returns `3` leaving `[1, 2, 4]` (read back via `get`), and a subsequent
`remove 0` returns `1` leaving `[2, 4]`. -/
theorem dll_remove_valid_index {T : Type} (l : dll.DoublyLinkedList T)
    (nodes : List (Nat × T)) (i : Nat) (h : dll.Models l nodes)
    (hi : i < nodes.length) :
    (∃ l2 a v, nodes[i]? = some (a, v) ∧ l.remove i = some (some v, l2) ∧
      (nodes.map Prod.snd)[i]? = some v ∧
      l2.length = l.length - 1 ∧
      dll.Models l2 (nodes.eraseIdx i) ∧
      (nodes.eraseIdx i).map Prod.snd = (nodes.map Prod.snd).eraseIdx i) ∧
    (∃ m2, (dll.fromVec ([1, 2, 3, 4] : List ℕ)).remove 2 = some (some 3, m2) ∧
      m2.get 0 = some 1 ∧ m2.get 1 = some 2 ∧ m2.get 2 = some 4 ∧ m2.get 3 = none ∧
      m2.length = 3 ∧
      ∃ m3, m2.remove 0 = some (some 1, m3) ∧
        m3.get 0 = some 2 ∧ m3.get 1 = some 4 ∧ m3.get 2 = none ∧ m3.length = 2) := by
  constructor
  · obtain ⟨l2, a, v, h1, h2, h3⟩ := dll.models_remove_lt h hi
    refine ⟨l2, a, v, h1, h2, ?_, ?_, h3, map_eraseIdx_comm Prod.snd nodes i⟩
    · rw [List.getElem?_map, h1]
      rfl
    · rw [dll.models_length h3, dll.models_length h, List.length_eraseIdx]
      simp [hi]
  · refine ⟨(((dll.fromVec ([1, 2, 3, 4] : List ℕ)).remove 2).getD (none, dll.new)).2,
      rfl, rfl, rfl, rfl, rfl, rfl, ?_⟩
    refine ⟨((((((dll.fromVec ([1, 2, 3, 4] : List ℕ)).remove 2).getD
      (none, dll.new)).2).remove 0).getD (none, dll.new)).2, rfl, rfl, rfl, rfl, rfl⟩

/-- Witness for C5 at the list built from `[1, 2, 3, 4]` and index `2`. -/
theorem dll_remove_valid_index_witness :
    2 < ([(0, 1), (1, 2), (2, 3), (3, 4)] : List (Nat × ℕ)).length ∧
    ∃ l2 a v, ([(0, 1), (1, 2), (2, 3), (3, 4)] : List (Nat × ℕ))[2]? = some (a, v) ∧
      (dll.fromVec ([1, 2, 3, 4] : List ℕ)).remove 2 = some (some v, l2) :=
  ⟨by decide,
    let r := (dll_remove_valid_index (dll.fromVec [1, 2, 3, 4])
      [(0, 1), (1, 2), (2, 3), (3, 4)] 2 dll_models_example (by decide)).1
    ⟨r.choose, r.choose_spec.choose, r.choose_spec.choose_spec.choose,
      r.choose_spec.choose_spec.choose_spec.1, r.choose_spec.choose_spec.choose_spec.2.1⟩⟩

/-- C6: pushing a sequence of values into an empty list and then fully
draining it by repeated `pop` yields the reverse of the pushed sequence. -/
theorem dll_push_pop_reverse {T : Type} (vs : List T) :
    dll.popAll vs.length (dll.fromVec vs) = vs.reverse := by
  obtain ⟨nodes2, hm, hv⟩ := dll.models_foldl_push vs dll.new [] dll.models_new
  have hlen : nodes2.length = vs.length := by
    have hle := congrArg List.length hv
    simpa using hle
  rw [dll.fromVec, ← hlen, dll.popAll_models nodes2 _ hm, hv]
  simp

/-- C9: For every array of a totally ordered element type, each of bubble
sort, insertion sort, and selection sort produces output that equals the array
sorted by a reference comparator (here `List.mergeSort` of the standard
library, pinned down by being the sorted permutation) and is a permutation of
the input; and running bubble sort on an already-sorted array performs no
element swaps (the early exit ends the outer loop after the first swap-free
pass, witnessed by a zero total swap count). -/
theorem sorts_sorted_perm_and_bubble_noswap {T : Type} [LinearOrder T] (l : List T) :
    ((bubble_sort.sort l).Perm l ∧ (bubble_sort.sort l).Sorted (· ≤ ·) ∧
      bubble_sort.sort l = l.mergeSort) ∧
    ((insertion_sort.sort l).Perm l ∧ (insertion_sort.sort l).Sorted (· ≤ ·) ∧
      insertion_sort.sort l = l.mergeSort) ∧
    ((selection_sort.sort l).Perm l ∧ (selection_sort.sort l).Sorted (· ≤ ·) ∧
      selection_sort.sort l = l.mergeSort) ∧
    (l.Sorted (· ≤ ·) → bubble_sort.swapCount l = 0) := by
  obtain ⟨hbp, hbs⟩ := bubble_sort.sort_bubble_correct l
  obtain ⟨hip, his⟩ := insertion_sort.sort_insertion_correct l
  obtain ⟨hsp, hss⟩ := selection_sort.sort_selection_correct l
  have href : ∀ s : List T, s.Perm l → s.Sorted (· ≤ ·) → s = l.mergeSort := fun s hp hs =>
    List.eq_of_perm_of_sorted (hp.trans (List.mergeSort_perm l _).symm) hs
      (List.sorted_mergeSort' l)
  exact ⟨⟨hbp, hbs, href _ hbp hbs⟩, ⟨hip, his, href _ hip his⟩,
    ⟨hsp, hss, href _ hsp hss⟩, fun h => (bubble_sort.swapCount_sorted h).1⟩

/-- Witness for C9 at a concrete sorted input: the hypothesis of the no-swap
clause holds at `[1, 2, 3]` and the theorem yields a zero swap count. -/
theorem sorts_sorted_perm_and_bubble_noswap_witness :
    (([1, 2, 3] : List ℕ).Sorted (· ≤ ·)) ∧ bubble_sort.swapCount ([1, 2, 3] : List ℕ) = 0 :=
  ⟨by decide, (sorts_sorted_perm_and_bubble_noswap [1, 2, 3]).2.2.2 (by decide)⟩

/-- C10: For every input slice, including the empty and single-element slices,
insertion sort terminates without any out-of-bounds index access or
unsigned-integer underflow: the bounds-checked index-level run never fails and
the inner loop's checked subtraction stops the leftward walk at index 0. -/
theorem insertion_sort_no_oob_no_underflow {T : Type} [LinearOrder T] (l : List T) :
    insertion_sort.sortChecked l = some (insertion_sort.sort l) :=
  insertion_sort.sortChecked_eq_sort l

/-- C8: For the tree built by inserting [10,6,15,3,8,20] in that order,
breadth-first traversal yields [10,6,15,3,8,20], pre-order yields
[10,6,3,8,15,20], post-order yields [3,8,6,20,15,10], and in-order yields
[3,6,8,10,15,20]. -/
theorem bst_traversals_of_example_tree :
    bst.traverse_breath_first (bst.fromVec [10, 6, 15, 3, 8, 20]) =
        [10, 6, 15, 3, 8, 20] ∧
    bst.Node.traverse_depth_first_pre_order (bst.fromVec [10, 6, 15, 3, 8, 20]) =
        [10, 6, 3, 8, 15, 20] ∧
    bst.Node.traverse_depth_first_post_order (bst.fromVec [10, 6, 15, 3, 8, 20]) =
        [3, 8, 6, 20, 15, 10] ∧
    bst.Node.traverse_depth_first_in_order
        (bst.fromVec ([10, 6, 15, 3, 8, 20] : List ℕ)) = [3, 6, 8, 10, 15, 20] := by
  have htree : bst.fromVec ([10, 6, 15, 3, 8, 20] : List ℕ) =
      .node 10 (.node 6 (.node 3 .nil .nil) (.node 8 .nil .nil))
        (.node 15 .nil (.node 20 .nil .nil)) := by decide
  refine ⟨?_, ?_, ?_, ?_⟩ <;> rw [htree]
  · simp [bst.traverse_breath_first, bst.bfsLoop, bst.enqueueChild]
  · decide
  · decide
  · decide
